import Mathlib

/-!
# FFTW planning fragments: a shallow embedding

Three translation units are embedded:

* `rdft/rdft2-inplace-strides.c` : the in-place stride predicate for real/complex
  problems (`rdft2_inplace_strides`);
* `mpi/transpose-alltoall.c` : the distributed transpose solver built on
  `MPI_Alltoall` / `MPI_Alltoallv` (`apply`, `applicable`, `mkplan`);
* `api/apiplan.c` : the planning facade (`mkapiplan`).

Conventions.  C `uint` values are natural numbers reduced modulo `UINT_MOD`
after every multiplication, `int` / `INT` values are integers, an explicit
`(int)` cast of an `INT` wraps to 32 bits (`cast_int`).  Reads outside an array,
failed assertions `A(...)` and division by zero have no defined result and are
modelled by `none`.  Calls that leave the translation unit (the planner, MPI,
the allocator) are recorded as events of a trace, their results being supplied
by an explicit environment.
-/

namespace FFTW

/-! ## Part 1: `rdft/rdft2-inplace-strides.c` -/

/-- The modulus of the C type `uint` (a 32-bit `unsigned int`). -/
def UINT_MOD : Nat := 4294967296

/-- Modelled from the spec: the header constant `RNK_MINFTY`, the rank of the
tensor that denotes "no iterations at all"; it is the all-ones `uint`. -/
def RNK_MINFTY : Nat := 4294967295

/-- Modelled from the spec: the header macro `FINITE_RNK(rnk)`, that is
`rnk != RNK_MINFTY`. -/
def FINITE_RNK (rnk : Nat) : Bool := rnk != RNK_MINFTY

/-- One dimension of a tensor: `uint n; int is; int os;`. -/
structure iodim where
  n : Nat
  is : Int
  os : Int
deriving DecidableEq, Repr

/-- A tensor: its rank and the array `dims` (of which `rnk` entries are meant to
exist when the rank is finite). -/
structure tensor where
  rnk : Nat
  dims : List iodim
deriving DecidableEq, Repr

/-- The transform kinds an rdft2 problem distinguishes; the stride predicate only
asks whether the kind is `R2HC`. -/
inductive rdft_kind where
  | R2HC
  | HC2R
  | DHT
deriving DecidableEq, Repr

/-- The fields of `problem_rdft2` that the stride predicate reads. -/
structure problem_rdft2 where
  sz : tensor
  vecsz : tensor
  kind : rdft_kind
deriving DecidableEq, Repr

/-- Modelled from the spec: the kernel helper `iabs`, the absolute value of an
`int`. -/
def iabs (a : Int) : Int := if a < 0 then 0 - a else a

/-- Modelled from the spec: the kernel helper `uimax`, the larger of two `uint`. -/
def uimax (a b : Nat) : Nat := if a > b then a else b

/-- The conversion of an `int` to `uint` that C applies when the two are mixed in an
arithmetic operation or comparison. -/
def uint_of_int (x : Int) : Nat := (x % (UINT_MOD : Int)).toNat

/-- Multiplication of two `uint` values. -/
def umul (a b : Nat) : Nat := (a * b) % UINT_MOD

/-- The loop of `tensor_sz`: `for (i = 0; i < rnk; ++i) n *= dims[i].n`, with `k`
iterations left, the next index `i` and the running product `n`. -/
def tensor_sz_loop (dims : List iodim) : Nat → Nat → Nat → Option Nat
  | 0, _, n => some n
  | k + 1, i, n =>
    match dims[i]? with
    | none => none
    | some d => tensor_sz_loop dims k (i + 1) (umul n d.n)

/-- Modelled from the spec: the kernel helper `tensor_sz`, the product of the counts
of all dimensions (0 for a tensor of rank `RNK_MINFTY`), computed in `uint`. -/
def tensor_sz (sz : tensor) : Option Nat :=
  if !FINITE_RNK sz.rnk then some 0
  else tensor_sz_loop sz.dims sz.rnk 0 1

/-- Lines 37-39: `for (i = 0; i + 1 < rnk; ++i) if (dims[i].is != dims[i].os) return 0;`
with `k` iterations left and next index `i`.  `some false` is the early `return 0`,
`some true` means the loop ran to its end. -/
def leading_loop (dims : List iodim) : Nat → Nat → Option Bool
  | 0, _ => some true
  | k + 1, i =>
    match dims[i]? with
    | none => none
    | some d => if d.is != d.os then some false else leading_loop dims k (i + 1)

/-- Lines 44-47: `for (vdim = 0; vdim < rnk; ++vdim) if (!f(vdim)) return 0; return 1;`
where `f` is the recursive call, with `k` iterations left and next index `vdim`. -/
def vec_loop (f : Nat → Option Bool) : Nat → Nat → Option Bool
  | 0, _ => some true
  | k + 1, vdim =>
    match f vdim with
    | none => none
    | some false => some false
    | some true => vec_loop f k (vdim + 1)

/-- The function `rdft2_inplace_strides` with a bound `fuel` on the depth of its
self-calls.  The result is `some true` for a returned 1, `some false` for a
returned 0, and `none` where the C code has no defined result. -/
def rdft2_inplace_strides_aux : Nat → problem_rdft2 → Nat → Option Bool
  | 0, _, _ => none
  | fuel + 1, p, vdim =>
    match leading_loop p.sz.dims (p.sz.rnk - 1) 0 with
    | none => none
    | some false => some false
    | some true =>
      if !FINITE_RNK p.vecsz.rnk || p.vecsz.rnk == 0 then some true
      else if !FINITE_RNK vdim then
        -- check all vector dimensions
        vec_loop (fun v => rdft2_inplace_strides_aux fuel p v) p.vecsz.rnk 0
      else if ¬ (vdim < p.vecsz.rnk) then none -- A(vdim < p->vecsz->rnk)
      else
        match p.vecsz.dims[vdim]? with
        | none => none
        | some vd =>
          if p.sz.rnk == 0 then some (vd.is == vd.os)
          else
            match tensor_sz p.sz, p.sz.dims[p.sz.rnk - 1]? with
            | some N, some ld =>
              if ld.n == 0 then none -- N / 0
              else
                let Nc := umul (N / ld.n) (ld.n / 2 + 1)
                let is := if p.kind = rdft_kind.R2HC then ld.is else ld.os
                let os := if p.kind = rdft_kind.R2HC then ld.os else ld.is
                some (vd.is == vd.os
                      && decide (uint_of_int (iabs vd.os)
                                 ≥ uimax (umul Nc (uint_of_int (iabs os)))
                                         (umul N (uint_of_int (iabs is)))))
            | _, _ => none

/-- The function `rdft2_inplace_strides(p, vdim)`.  A call with `vdim == RNK_MINFTY`
calls itself once for every vector dimension, and those calls (with a finite
`vdim`) do not recurse, so two levels are all a call can need. -/
def rdft2_inplace_strides (p : problem_rdft2) (vdim : Nat) : Option Bool :=
  rdft2_inplace_strides_aux 2 p vdim

/-- The value `rdft2_inplace_strides` compares the vector stride with:
`uimax(Nc * iabs(os), N * iabs(is))` of line 67, for the size `N`, the last transform
dimension `ld` and the problem kind. -/
def stride_bound (kind : rdft_kind) (N : Nat) (ld : iodim) : Nat :=
  uimax (umul (umul (N / ld.n) (ld.n / 2 + 1))
              (uint_of_int (iabs (if kind = rdft_kind.R2HC then ld.os else ld.is))))
        (umul N (uint_of_int (iabs (if kind = rdft_kind.R2HC then ld.is else ld.os))))

/-- The product of the counts of the `rnk` dimensions of a tensor, over the natural
numbers. -/
def tensor_prod (sz : tensor) : Nat := ((sz.dims.take sz.rnk).map iodim.n).prod

/-! ### The reference overlap check

The definitions below are not taken from the C code.  They spell out the brute-force
overlap check against which the predicate is judged: input and output start at the
same base address (address 0), and every address touched is enumerated. -/

/-- All index tuples `(k_0, ..., k_{r-1})` with `k_d < ns_d`. -/
def index_tuples : List Nat → List (List Nat)
  | [] => [[]]
  | n :: ns => (List.range n).flatMap (fun k => (index_tuples ns).map (fun ks => k :: ks))

/-- The offset `sum of k_d * stride_d` of an index tuple. -/
def offset_of : List Nat → List Int → Int
  | k :: ks, s :: ss => (k : Int) * s + offset_of ks ss
  | _, _ => 0

/-- The counts of the complex side of an rdft2 transform: the last dimension runs
over `n / 2 + 1` entries. -/
def halve_last : List Nat → List Nat
  | [] => []
  | [n] => [n / 2 + 1]
  | n :: m :: ns => n :: halve_last (m :: ns)

/-- The index tuples a tensor iterates over, for the given per-dimension counts; a
tensor of rank `RNK_MINFTY` iterates over nothing. -/
def iter_tuples (t : tensor) (counts : List Nat) : List (List Nat) :=
  if FINITE_RNK t.rnk then index_tuples counts else []

/-- The counts of the transform dimensions. -/
def sz_counts (p : problem_rdft2) : List Nat := (p.sz.dims.take p.sz.rnk).map iodim.n

/-- Offsets (relative to the start of one transform) read as input: the real array for
`R2HC`, the complex array otherwise. -/
def input_offsets (p : problem_rdft2) : List Int :=
  (iter_tuples p.sz
      (if p.kind = rdft_kind.R2HC then sz_counts p else halve_last (sz_counts p))).map
    (fun k => offset_of k ((p.sz.dims.take p.sz.rnk).map iodim.is))

/-- Offsets (relative to the start of one transform) written as output: the complex
array, whose last dimension runs over `n / 2 + 1` entries, for `R2HC`, the real array
otherwise. -/
def output_offsets (p : problem_rdft2) : List Int :=
  (iter_tuples p.sz
      (if p.kind = rdft_kind.R2HC then halve_last (sz_counts p) else sz_counts p)).map
    (fun k => offset_of k ((p.sz.dims.take p.sz.rnk).map iodim.os))

/-- The index tuples of the vector loop. -/
def vec_tuples (p : problem_rdft2) : List (List Nat) :=
  iter_tuples p.vecsz ((p.vecsz.dims.take p.vecsz.rnk).map iodim.n)

/-- Addresses read as input by the transform at vector index tuple `v`. -/
def input_addrs (p : problem_rdft2) (v : List Nat) : List Int :=
  (input_offsets p).map
    (fun o => offset_of v ((p.vecsz.dims.take p.vecsz.rnk).map iodim.is) + o)

/-- Addresses written as output by the transform at vector index tuple `v`. -/
def output_addrs (p : problem_rdft2) (v : List Nat) : List Int :=
  (output_offsets p).map
    (fun o => offset_of v ((p.vecsz.dims.take p.vecsz.rnk).map iodim.os) + o)

/-- The brute-force check: for any two distinct vector index tuples, no address written
for the one is read or written for the other. -/
def no_hazard (p : problem_rdft2) : Prop :=
  ∀ v ∈ vec_tuples p, ∀ w ∈ vec_tuples p, v ≠ w →
    ∀ a ∈ output_addrs p v, a ∉ input_addrs p w ∧ a ∉ output_addrs p w

instance (p : problem_rdft2) : Decidable (no_hazard p) := by
  unfold no_hazard
  infer_instance

/-- A rank-1 `R2HC` problem of size 4 with input stride -1 and output stride 1, repeated
twice at vector stride 4. -/
def reversed_input_problem : problem_rdft2 :=
  { sz := ⟨1, [⟨4, -1, 1⟩]⟩, vecsz := ⟨1, [⟨2, 4, 4⟩]⟩, kind := rdft_kind.R2HC }

/-- A 3 x 4 `R2HC` problem in the usual padded in-place layout (real stride 1, complex
stride 2, row stride 6), repeated 5 times at vector stride 18. -/
def padded_problem : problem_rdft2 :=
  { sz := ⟨2, [⟨3, 6, 6⟩, ⟨4, 1, 2⟩]⟩, vecsz := ⟨1, [⟨5, 18, 18⟩]⟩, kind := rdft_kind.R2HC }

/-! ## Part 2: `mpi/transpose-alltoall.c`

Buffers (`R *`) are addresses counted in elements, so that `I + Ioff` is integer
addition.  Plans and communicators are handles.  `INT` quantities are integers. -/

/-- The planner as far as these translation units look into it: its policy flags, and
the rest of its state (solvers, wisdom) kept abstract. -/
structure planner where
  planner_flags : Nat
  rest : Nat
deriving DecidableEq, Repr

/-- Constants and macros of `mpi-transpose.h` and `ifftw.h` that the solver uses and
that are declared outside this translation unit. -/
structure mpi_header where
  TRANSPOSED_IN : Nat
  TRANSPOSED_OUT : Nat
  SCRAMBLEDP : Nat → Bool
  NO_DESTROY_INPUTP : planner → Bool

/-- The solver `S`: `copy_transposed_in` says whether to copy the input for
`TRANSPOSED_IN`. -/
structure S where
  copy_transposed_in : Int
deriving DecidableEq, Repr

/-- The fields of `problem_mpi_transpose` that the solver reads. -/
structure problem_mpi_transpose where
  nx : Int
  ny : Int
  vn : Int
  I : Int
  O : Int
  block : Int
  tblock : Int
  comm : Nat
  flags : Nat
deriving DecidableEq, Repr

/-- One dimension `(n, is, os)` of the tensor of a local sub-problem. -/
structure tdim where
  n : Int
  is : Int
  os : Int
deriving DecidableEq, Repr

/-- The tensor `mktensor_1d(n, is, os)`. -/
def mktensor_1d (n is os : Int) : List tdim := [⟨n, is, os⟩]

/-- The tensor `mktensor_2d(n0, is0, os0, n1, is1, os1)`. -/
def mktensor_2d (n0 is0 os0 n1 is1 os1 : Int) : List tdim := [⟨n0, is0, os0⟩, ⟨n1, is1, os1⟩]

/-- The tensor `mktensor_3d(n0, is0, os0, n1, is1, os1, n2, is2, os2)`. -/
def mktensor_3d (n0 is0 os0 n1 is1 os1 n2 is2 os2 : Int) : List tdim :=
  [⟨n0, is0, os0⟩, ⟨n1, is1, os1⟩, ⟨n2, is2, os2⟩]

/-- The tensor `mktensor_4d(n0, is0, os0, ..., n3, is3, os3)`. -/
def mktensor_4d (n0 is0 os0 n1 is1 os1 n2 is2 os2 n3 is3 os3 : Int) : List tdim :=
  [⟨n0, is0, os0⟩, ⟨n1, is1, os1⟩, ⟨n2, is2, os2⟩, ⟨n3, is3, os3⟩]

/-- The local copy/transpose problem `mkproblem_rdft_0_d(sz, I, O)`. -/
structure problem_rdft_0 where
  sz : List tdim
  I : Int
  O : Int
deriving DecidableEq, Repr

/-- The three sub-plans of the solver; the tag names the call site of a planner or
failure query. -/
inductive child where
  | cld1
  | cld2
  | cld2rest
deriving DecidableEq, Repr

/-- The calls that leave the translation unit, in the order in which they are made. -/
inductive event where
  /-- A sub-plan requested with `mkplan_d`, and the plan returned (`none` for null). -/
  | mkplan_d (c : child) (prb : problem_rdft_0) (res : Option Nat)
  /-- The query `any_true(flag, comm)` and its answer. -/
  | any_true (c : child) (flag : Bool) (res : Bool)
  /-- The call `plan_destroy_internal(pln)` (`none` for a null argument). -/
  | plan_destroy_internal (pln : Option Nat)
  /-- The plan object created by `MKPLAN_MPI_TRANSPOSE`. -/
  | MKPLAN_MPI_TRANSPOSE
  /-- The call `MPI_Comm_dup(comm, &pln->comm)`. -/
  | MPI_Comm_dup (comm : Nat)
  /-- The block-size table allocated with `MALLOC(n * sizeof(int), PLANS)`. -/
  | MALLOC (n : Nat)
  /-- The call `cld->apply(cld, I, O)` of a sub-plan. -/
  | child_apply (pln : Nat) (I O : Int)
  /-- The call `MPI_Alltoall(sendbuf, sendcount, ..., recvbuf, recvcount, ..., comm)`. -/
  | MPI_Alltoall (sendbuf sendcount recvbuf recvcount : Int) (comm : Nat)
  /-- The call `MPI_Alltoallv(sendbuf, sendcounts, sdispls, ..., recvbuf, recvcounts,
  rdispls, ..., comm)`. -/
  | MPI_Alltoallv (sendbuf : Int) (sendcounts sdispls : List Int)
      (recvbuf : Int) (recvcounts rdispls : List Int) (comm : Nat)
deriving DecidableEq, Repr

/-- The plan `P`.  `equal_blocks` is `true` for the C value 1.  The four tables are the
four quarters of the one array that `mkplan` allocates. -/
structure P where
  cld1 : Option Nat
  cld2 : Option Nat
  cld2rest : Option Nat
  comm : Nat
  send_block_sizes : List Int
  send_block_offsets : List Int
  recv_block_sizes : List Int
  recv_block_offsets : List Int
  rest_Ioff : Int
  rest_Ooff : Int
  equal_blocks : Bool
deriving DecidableEq, Repr

/-- What `mkplan` obtains from outside: the rank and size of the group, the sub-plan the
planner returns for each request, the answer of each group-wide failure query, and the
handle of the duplicated communicator. -/
structure mkplan_env where
  my_pe : Nat
  n_pes : Nat
  mkplan_d : child → problem_rdft_0 → Option Nat
  any_true : child → Bool → Bool
  dup_comm : Nat

/-- Modelled from the spec: the block-partition helper `block(n, b, pe)` of `block.c`,
`min(b, max(0, n - pe * b))`, the extent of the block of process `pe`. -/
def XM_block (n block : Int) (which_block : Int) : Int :=
  min block (max 0 (n - which_block * block))

/-- The explicit cast `(int) x` of an `INT`: the value wrapped to 32 bits. -/
def cast_int (x : Int) : Int := (x + 2147483648) % 4294967296 - 2147483648

/-- The global exchange of `apply` (lines 60-69 and, with the buffers swapped, lines
73-82): `MPI_Alltoall` with the first entries of the size tables if `equal_blocks`,
`MPI_Alltoallv` with the tables otherwise.  `none` if a table has no first entry. -/
def exchange (ego : P) (sendbuf recvbuf : Int) : Option event :=
  if ego.equal_blocks then
    match ego.send_block_sizes[0]?, ego.recv_block_sizes[0]? with
    | some sc, some rc => some (event.MPI_Alltoall sendbuf sc recvbuf rc ego.comm)
    | _, _ => none
  else
    some (event.MPI_Alltoallv sendbuf ego.send_block_sizes ego.send_block_offsets
            recvbuf ego.recv_block_sizes ego.recv_block_offsets ego.comm)

/-- Lines 86-94 of `apply`: the local transposes after the exchange. -/
def apply_post (ego : P) (I O : Int) : List event :=
  match ego.cld2 with
  | some cld2 =>
    event.child_apply cld2 I O ::
      (match ego.cld2rest with
       | some cld2rest => [event.child_apply cld2rest (I + ego.rest_Ioff) (O + ego.rest_Ooff)]
       | none => [])
  | none => []

/-- The function `apply(ego, I, O)`: the calls it makes, in order. -/
def apply (ego : P) (I O : Int) : Option (List event) :=
  match ego.cld1 with
  | some cld1 =>
    -- transpose locally to get contiguous chunks, then transpose chunks globally
    match exchange ego O I with
    | some x => some (event.child_apply cld1 I O :: x :: apply_post ego I O)
    | none => none
  | none =>
    -- TRANSPOSED_IN, no need to destroy input
    match exchange ego I O with
    | some x => some (x :: apply_post ego O O) -- I = O
    | none => none

/-- The function `applicable(ego, p, plnr)`. -/
def applicable (hdr : mpi_header) (ego : S) (p : problem_mpi_transpose) (plnr : planner) :
    Bool :=
  p.I != p.O
  && (!hdr.NO_DESTROY_INPUTP plnr
      || ((p.flags &&& hdr.TRANSPOSED_IN) != 0 && ego.copy_transposed_in == 0))
  && ((p.flags &&& hdr.TRANSPOSED_IN) != 0 || ego.copy_transposed_in == 0)
  && !hdr.SCRAMBLEDP p.flags

/-- The block-size tables under construction and the flag `equal_blocks`. -/
structure block_tables where
  sbs : List Int
  sbo : List Int
  rbs : List Int
  rbo : List Int
  equal_blocks : Bool
deriving DecidableEq, Repr

/-- One iteration of the loop of lines 259-273, for the destination `pe`. -/
def fill_step (p : problem_mpi_transpose) (b bt : Int) (t : block_tables) (pe : Nat) :
    block_tables :=
  let db := XM_block p.nx p.block pe
  let dbt := XM_block p.ny p.tblock pe
  let s := cast_int (b * dbt * p.vn)
  let r := cast_int (db * bt * p.vn)
  { sbs := t.sbs ++ [s]
    sbo := t.sbo ++ [cast_int ((pe : Int) * (b * p.tblock) * p.vn)]
    rbs := t.rbs ++ [r]
    rbo := t.rbo ++ [cast_int ((pe : Int) * (p.block * bt) * p.vn)]
    equal_blocks :=
      if s != (b * p.tblock) * p.vn || r != (p.block * bt) * p.vn then false
      else t.equal_blocks }

/-- Lines 257-273: the tables of process `my_pe` in a group of `n_pes`, and
`equal_blocks` (initially 1). -/
def fill_tables (p : problem_mpi_transpose) (my_pe n_pes : Nat) : block_tables :=
  (List.range n_pes).foldl
    (fill_step p (XM_block p.nx p.block my_pe) (XM_block p.ny p.tblock my_pe))
    ⟨[], [], [], [], true⟩

/-- The label `nada` (lines 288-292): destroy the three sub-plans and return null. -/
def nada (tr : List event) (cld1 cld2 cld2rest : Option Nat) : Option P × List event :=
  (none, tr ++ [event.plan_destroy_internal cld2rest, event.plan_destroy_internal cld2,
                event.plan_destroy_internal cld1])

/-- Lines 239-286 of `mkplan`: create the plan and fill it in.  (The operation counts,
which are floating-point bookkeeping, are left out.) -/
def mkplan_finish (env : mkplan_env) (p : problem_mpi_transpose) (tr : List event)
    (cld1 cld2 cld2rest : Option Nat) (Ioff Ooff : Int) : Option P × List event :=
  let t := fill_tables p env.my_pe env.n_pes
  (some { cld1 := cld1, cld2 := cld2, cld2rest := cld2rest
          rest_Ioff := Ioff, rest_Ooff := Ooff
          comm := env.dup_comm
          send_block_sizes := t.sbs, send_block_offsets := t.sbo
          recv_block_sizes := t.rbs, recv_block_offsets := t.rbo
          equal_blocks := t.equal_blocks },
   tr ++ [event.MKPLAN_MPI_TRANSPOSE, event.MPI_Comm_dup p.comm, event.MALLOC (4 * env.n_pes)])

/-- The number `nxb` of equal-sized blocks (lines 187-189); `/` of C truncates.  (For
`block == 0` the C division has no defined result; `Int.tdiv` then gives 0.  Problems
have `block > 0`.) -/
def mkplan_nxb (p : problem_mpi_transpose) : Int :=
  let nxb := Int.tdiv (p.nx + p.block - 1) p.block
  if p.nx != nxb * p.block then nxb - 1 else nxb

/-- Lines 186-237 of `mkplan`, followed by the rest: plan the local transposes after
the exchange, reading from `I`. -/
def mkplan_post (hdr : mpi_header) (env : mkplan_env) (p : problem_mpi_transpose)
    (tr : List event) (cld1 : Option Nat) (I : Int) : Option P × List event :=
  let vn := p.vn
  let bt := XM_block p.ny p.tblock env.my_pe
  let nxb := mkplan_nxb p
  if (p.flags &&& hdr.TRANSPOSED_OUT) == 0 then
    let nx := p.nx * vn
    let b := p.block * vn
    let prb2 : problem_rdft_0 :=
      ⟨mktensor_3d nxb (bt * b) b  bt b nx  b 1 1, I, p.O⟩
    let cld2 := env.mkplan_d child.cld2 prb2
    let f2 := env.any_true child.cld2 cld2.isNone
    let tr2 := tr ++ [event.mkplan_d child.cld2 prb2 cld2,
                      event.any_true child.cld2 cld2.isNone f2]
    if f2 then nada tr2 cld1 cld2 none
    else if p.nx != nxb * p.block then
      -- leftover blocks to transpose
      let Ioff := bt * b * nxb
      let Ooff := b * nxb
      let b := nx - nxb * b
      let prb3 : problem_rdft_0 :=
        ⟨mktensor_2d bt b nx  b 1 1, I + Ioff, p.O + Ooff⟩
      let cld2rest := env.mkplan_d child.cld2rest prb3
      let f3 := env.any_true child.cld2rest cld2rest.isNone
      let tr3 := tr2 ++ [event.mkplan_d child.cld2rest prb3 cld2rest,
                         event.any_true child.cld2rest cld2rest.isNone f3]
      if f3 then nada tr3 cld1 cld2 cld2rest
      else mkplan_finish env p tr3 cld1 cld2 cld2rest Ioff Ooff
    else mkplan_finish env p tr2 cld1 cld2 none 0 0
  else
    -- TRANSPOSED_OUT
    let b := p.block
    let prb2 : problem_rdft_0 :=
      ⟨mktensor_4d nxb (bt * b * vn) (bt * b * vn)  bt (b * vn) vn  b vn (bt * vn)  vn 1 1,
       I, p.O⟩
    let cld2 := env.mkplan_d child.cld2 prb2
    let f2 := env.any_true child.cld2 cld2.isNone
    let tr2 := tr ++ [event.mkplan_d child.cld2 prb2 cld2,
                      event.any_true child.cld2 cld2.isNone f2]
    if f2 then nada tr2 cld1 cld2 none
    else if p.nx != nxb * p.block then
      -- leftover blocks to transpose
      let Ioff := bt * b * nxb * vn
      let Ooff := Ioff
      let b := p.nx - nxb * b
      let prb3 : problem_rdft_0 :=
        ⟨mktensor_3d bt (b * vn) vn  b vn (bt * vn)  vn 1 1, I + Ioff, p.O + Ooff⟩
      let cld2rest := env.mkplan_d child.cld2rest prb3
      let f3 := env.any_true child.cld2rest cld2rest.isNone
      let tr3 := tr2 ++ [event.mkplan_d child.cld2rest prb3 cld2rest,
                         event.any_true child.cld2rest cld2rest.isNone f3]
      if f3 then nada tr3 cld1 cld2 cld2rest
      else mkplan_finish env p tr3 cld1 cld2 cld2rest Ioff Ooff
    else mkplan_finish env p tr2 cld1 cld2 none 0 0

/-- The function `mkplan(ego, p, plnr)`: the plan returned (`none` for null) and the
calls made. -/
def mkplan (hdr : mpi_header) (env : mkplan_env) (ego : S) (p : problem_mpi_transpose)
    (plnr : planner) : Option P × List event :=
  if !applicable hdr ego p plnr then (none, [])
  else
    let vn := p.vn
    let b := XM_block p.nx p.block env.my_pe
    if (p.flags &&& hdr.TRANSPOSED_IN) != 0 then
      -- I is already transposed
      if ego.copy_transposed_in != 0 then
        let prb1 : problem_rdft_0 := ⟨mktensor_1d (b * p.ny * vn) 1 1, p.I, p.O⟩
        let cld1 := env.mkplan_d child.cld1 prb1
        let f1 := env.any_true child.cld1 cld1.isNone
        let tr1 := [event.mkplan_d child.cld1 prb1 cld1,
                    event.any_true child.cld1 cld1.isNone f1]
        if f1 then nada tr1 cld1 none none
        else mkplan_post hdr env p tr1 cld1 p.I
      else
        -- final transpose is in-place
        mkplan_post hdr env p [] none p.O
    else
      -- transpose b x ny x vn -> ny x b x vn
      let prb1 : problem_rdft_0 :=
        ⟨mktensor_3d b (p.ny * vn) vn  p.ny vn (b * vn)  vn 1 1, p.I, p.O⟩
      let cld1 := env.mkplan_d child.cld1 prb1
      let f1 := env.any_true child.cld1 cld1.isNone
      let tr1 := [event.mkplan_d child.cld1 prb1 cld1,
                  event.any_true child.cld1 cld1.isNone f1]
      if f1 then nada tr1 cld1 none none
      else mkplan_post hdr env p tr1 cld1 p.I

/-- The tables, flag and communicator that `mkplan` stores in a plan. -/
def plan_has_tables (env : mkplan_env) (p : problem_mpi_transpose) (pln : P) : Prop :=
  pln.send_block_sizes = (fill_tables p env.my_pe env.n_pes).sbs ∧
  pln.send_block_offsets = (fill_tables p env.my_pe env.n_pes).sbo ∧
  pln.recv_block_sizes = (fill_tables p env.my_pe env.n_pes).rbs ∧
  pln.recv_block_offsets = (fill_tables p env.my_pe env.n_pes).rbo ∧
  pln.equal_blocks = (fill_tables p env.my_pe env.n_pes).equal_blocks ∧
  pln.comm = env.dup_comm

/-! ### Reference descriptions and sample inputs for the transpose solver

The definitions of this section are not taken from the C code: they restate what is
claimed about it, or fix concrete inputs for examples. -/

/-- The steps claimed for `apply`, for first table entries `sc` and `rc`: `cld1` (if
present) from `I` into `O` and one exchange from `O` into `I`, or, without `cld1`, one
exchange from `I` into `O`; then `cld2` (if present) on the buffers `(I, O)`, or `(O, O)`
without `cld1`; then `cld2rest` (if present, and `cld2` has run) on the same two buffers
displaced by `rest_Ioff` and `rest_Ooff`.  The exchange is `MPI_Alltoall` exactly when
`equal_blocks` is set. -/
def claimed_steps (ego : P) (I O sc rc : Int) : List event :=
  let x : Int → Int → event := fun s r =>
    if ego.equal_blocks = true then event.MPI_Alltoall s sc r rc ego.comm
    else event.MPI_Alltoallv s ego.send_block_sizes ego.send_block_offsets
           r ego.recv_block_sizes ego.recv_block_offsets ego.comm
  let after : Int → Int → List event := fun a b =>
    match ego.cld2, ego.cld2rest with
    | some c2, some c3 =>
      [event.child_apply c2 a b, event.child_apply c3 (a + ego.rest_Ioff) (b + ego.rest_Ooff)]
    | some c2, none => [event.child_apply c2 a b]
    | none, _ => []
  match ego.cld1 with
  | some c1 => [event.child_apply c1 I O, x O I] ++ after I O
  | none => [x I O] ++ after O O

/-- Whether an event is a collective exchange. -/
def is_exchange : event → Bool
  | event.MPI_Alltoall _ _ _ _ _ => true
  | event.MPI_Alltoallv _ _ _ _ _ _ _ => true
  | _ => false

/-- A concrete choice of the header constants, for examples: flag bits 1 and 2 mark a
scrambled layout, bits 4 and 8 a transposed input and output, and planner flag bit 16
forbids destroying the input. -/
def example_header : mpi_header :=
  { TRANSPOSED_IN := 4
    TRANSPOSED_OUT := 8
    SCRAMBLEDP := fun flags => (flags &&& 3) != 0
    NO_DESTROY_INPUTP := fun plnr => (plnr.planner_flags &&& 16) != 0 }

/-- An environment for examples: process `my_pe` of `n_pes`, a planner that returns the
plans 1, 2 and 3 for the three sub-problems, and a group in which no other process
fails (the failure query returns the local flag). -/
def example_env (my_pe n_pes : Nat) : mkplan_env :=
  { my_pe := my_pe
    n_pes := n_pes
    mkplan_d := fun c _ =>
      match c with
      | child.cld1 => some 1
      | child.cld2 => some 2
      | child.cld2rest => some 3
    any_true := fun _ flag => flag
    dup_comm := 7 }

/-- A transpose problem with extents `nx x ny`, block sizes `block` and `tblock`, one
value per point, input at address 0, output at address 1000, and no flags. -/
def example_problem (nx ny block tblock : Int) : problem_mpi_transpose :=
  { nx := nx, ny := ny, vn := 1, I := 0, O := 1000, block := block, tblock := tblock,
    comm := 0, flags := 0 }

/-- A plan with all three sub-plans and tables for two processes. -/
def example_plan : P :=
  { cld1 := some 1, cld2 := some 2, cld2rest := some 3, comm := 7
    send_block_sizes := [6, 3], send_block_offsets := [0, 6]
    recv_block_sizes := [6, 6], recv_block_offsets := [0, 6]
    rest_Ioff := 8, rest_Ooff := 4, equal_blocks := false }

/-- The sub-problem of a request for the leftover sub-plan `cld2rest`. -/
def rest_request_of : event → Option problem_rdft_0
  | event.mkplan_d child.cld2rest prb _ => some prb
  | _ => none

/-- The sub-problems for which `cld2rest` is requested in a trace. -/
def rest_requests (tr : List event) : List problem_rdft_0 := tr.filterMap rest_request_of

/-- The local variable `I` of `mkplan` after line 184: the output buffer when the input
is already transposed and is not copied, the input buffer otherwise. -/
def mkplan_I (hdr : mpi_header) (ego : S) (p : problem_mpi_transpose) : Int :=
  if (p.flags &&& hdr.TRANSPOSED_IN) != 0 && ego.copy_transposed_in == 0 then p.O else p.I

/-- The tail offsets `(Ioff, Ooff)` computed at lines 202-203 and 226. -/
def rest_offsets (hdr : mpi_header) (env : mkplan_env) (p : problem_mpi_transpose) :
    Int × Int :=
  let bt := XM_block p.ny p.tblock env.my_pe
  if (p.flags &&& hdr.TRANSPOSED_OUT) == 0 then
    (bt * (p.block * p.vn) * mkplan_nxb p, p.block * p.vn * mkplan_nxb p)
  else
    (bt * p.block * mkplan_nxb p * p.vn, bt * p.block * mkplan_nxb p * p.vn)

/-- The sub-problem of lines 205-210 and 228-234, reading from `I`. -/
def rest_problem (hdr : mpi_header) (env : mkplan_env) (p : problem_mpi_transpose)
    (I : Int) : problem_rdft_0 :=
  let bt := XM_block p.ny p.tblock env.my_pe
  if (p.flags &&& hdr.TRANSPOSED_OUT) == 0 then
    ⟨mktensor_2d bt (p.nx * p.vn - mkplan_nxb p * (p.block * p.vn)) (p.nx * p.vn)
        (p.nx * p.vn - mkplan_nxb p * (p.block * p.vn)) 1 1,
     I + (rest_offsets hdr env p).1, p.O + (rest_offsets hdr env p).2⟩
  else
    ⟨mktensor_3d bt ((p.nx - mkplan_nxb p * p.block) * p.vn) p.vn
        (p.nx - mkplan_nxb p * p.block) p.vn (bt * p.vn)  p.vn 1 1,
     I + (rest_offsets hdr env p).1, p.O + (rest_offsets hdr env p).2⟩

/-- The leftover sub-problem as claimed: with `r = nx mod block` rows left over after
`nxb = floor(nx / block)` full blocks and `bt` the own block of the other dimension, a
`bt x (r * vn)` transpose at offsets `Ioff = bt * block * vn * nxb`,
`Ooff = block * vn * nxb` without `TRANSPOSED_OUT`, and a `bt x r x vn` transpose at
offsets `Ioff = Ooff = bt * block * nxb * vn` with `TRANSPOSED_OUT`. -/
def claimed_rest_problem (hdr : mpi_header) (env : mkplan_env) (p : problem_mpi_transpose)
    (I : Int) : problem_rdft_0 :=
  let bt := XM_block p.ny p.tblock env.my_pe
  let nxb := p.nx / p.block
  let r := p.nx % p.block
  if (p.flags &&& hdr.TRANSPOSED_OUT) = 0 then
    ⟨mktensor_2d bt (r * p.vn) (p.nx * p.vn)  (r * p.vn) 1 1,
     I + bt * p.block * p.vn * nxb, p.O + p.block * p.vn * nxb⟩
  else
    ⟨mktensor_3d bt (r * p.vn) p.vn  r p.vn (bt * p.vn)  p.vn 1 1,
     I + bt * p.block * nxb * p.vn, p.O + bt * p.block * nxb * p.vn⟩

/-- What `mkapiplan` uses from outside the translation unit: the flag constants, the
flag mapping `mapflags`, and the planner operations `plnr->adt->mkplan` (which returns
a plan, `none` for null, and may change the planner) and `plnr->adt->forget`. -/
structure api_header where
  BLESSING : Nat
  FORGET_ACCURSED : Nat
  mapflags : planner → Nat → planner
  adt_mkplan : planner → Nat → Option Nat × planner
  adt_forget : planner → Nat → planner

/-- The structure `apiplan`. -/
structure apiplan where
  pln : Nat
  prb : Nat
deriving DecidableEq, Repr

/-- The calls of `mkapiplan` that act on plans, in order. -/
inductive api_event where
  | plan_use (pln : Nat)
  | AWAKE (pln : Nat) (flag : Int)
  | plan_destroy (pln : Option Nat)
deriving DecidableEq, Repr

/-- What a returning call of `mkapiplan` leaves behind: the `apiplan`, the planner and
the calls made on plans. -/
structure mkapiplan_result where
  p : apiplan
  plnr : planner
  calls : List api_event

/-- The function `mkapiplan(flags, prb)`, run on the planner `plnr`.  The result is
`none` when the first planner call returns null, which `plan_use` and `AWAKE`
dereference. -/
def mkapiplan (hdr : api_header) (plnr : planner) (flags : Nat) (prb : Nat) :
    Option mkapiplan_result :=
  -- map API flags into FFTW flags
  let plnr1 := hdr.mapflags plnr flags
  -- create plan: plnr->planner_flags &= ~BLESSING
  let plnr2 : planner :=
    { plnr1 with planner_flags := Nat.ldiff plnr1.planner_flags hdr.BLESSING }
  let r := hdr.adt_mkplan plnr2 prb
  match r.1 with
  | none => none
  | some pln =>
    -- blessing protocol: plnr->planner_flags |= BLESSING
    let plnr3 : planner := { r.2 with planner_flags := r.2.planner_flags ||| hdr.BLESSING }
    let r0 := hdr.adt_mkplan plnr3 prb
    -- discard all information not necessary to reconstruct the plan
    let plnr4 := hdr.adt_forget r0.2 hdr.FORGET_ACCURSED
    some { p := ⟨pln, prb⟩
           plnr := plnr4
           calls := [api_event.plan_use pln, api_event.AWAKE pln 1,
                     api_event.plan_destroy r0.1] }

/-- The assumption that the planner operations `mkplan` and `forget` leave the policy
flags unchanged. -/
def planner_keeps_flags (hdr : api_header) : Prop :=
  (∀ q prb, (hdr.adt_mkplan q prb).2.planner_flags = q.planner_flags) ∧
  (∀ q a, (hdr.adt_forget q a).planner_flags = q.planner_flags)

/-- A concrete planner interface for examples: `BLESSING` is bit 0, `mapflags` stores
the API flags shifted past the blessing bit, and planning returns plan 1 and records
the call in the rest of the planner state without touching the flags. -/
def example_api : api_header :=
  { BLESSING := 1
    FORGET_ACCURSED := 1
    mapflags := fun plnr flags => { plnr with planner_flags := 2 * flags }
    adt_mkplan := fun plnr _ => (some 1, { plnr with rest := plnr.rest + 1 })
    adt_forget := fun plnr _ => plnr }

/-- A planner interface whose `mapflags` leaves the planner untouched, with `BLESSING`
bit 0. -/
def inert_api : api_header :=
  { BLESSING := 1
    FORGET_ACCURSED := 1
    mapflags := fun plnr _ => plnr
    adt_mkplan := fun plnr _ => (some 1, plnr)
    adt_forget := fun plnr _ => plnr }

/-- A 2 x 4 `R2HC` problem with positive strides whose rows lie 11 apart, repeated twice
at vector stride 8. -/
def wide_rows_problem : problem_rdft2 :=
  { sz := ⟨2, [⟨2, 11, 11⟩, ⟨4, 1, 1⟩]⟩, vecsz := ⟨1, [⟨2, 8, 8⟩]⟩, kind := rdft_kind.R2HC }

/-- Two vector dimensions with the same stride. -/
def twin_vector_problem : problem_rdft2 :=
  { sz := ⟨1, [⟨4, 1, 1⟩]⟩, vecsz := ⟨2, [⟨2, 4, 4⟩, ⟨2, 4, 4⟩]⟩, kind := rdft_kind.R2HC }

/-- A 65536 x 65536 `R2HC` problem (row stride 65536, unit strides in the last
dimension), repeated twice at vector stride 1: the product of the counts is 2^32. -/
def wrapping_size_problem : problem_rdft2 :=
  { sz := ⟨2, [⟨65536, 65536, 65536⟩, ⟨65536, 1, 1⟩]⟩, vecsz := ⟨1, [⟨2, 1, 1⟩]⟩,
    kind := rdft_kind.R2HC }

/-- A size-4 `R2HC` problem with output stride 1431655766, repeated twice at vector
stride 4: `Nc * |os|` is 2^32 + 2. -/
def wrapping_output_problem : problem_rdft2 :=
  { sz := ⟨1, [⟨4, 1, 1431655766⟩]⟩, vecsz := ⟨1, [⟨2, 4, 4⟩]⟩, kind := rdft_kind.R2HC }

/-- A size-4 `R2HC` problem with input stride 2^30, repeated twice at vector stride 3:
`N * |is|` is 2^32. -/
def wrapping_input_problem : problem_rdft2 :=
  { sz := ⟨1, [⟨4, 1073741824, 1⟩]⟩, vecsz := ⟨1, [⟨2, 3, 3⟩]⟩, kind := rdft_kind.R2HC }

/-! # Theorems -/

/-! ### Facts about the loops -/

theorem leading_loop_true (dims : List iodim) :
    ∀ (k i : Nat), leading_loop dims k i = some true →
      ∀ j, i ≤ j → j < i + k → ∃ d, dims[j]? = some d ∧ d.is = d.os := by
  intro k
  induction k with
  | zero => intro i _ j h1 h2; omega
  | succ k ih =>
    intro i h j h1 h2
    simp only [leading_loop] at h
    split at h
    · exact absurd h (by simp)
    · rename_i d hd
      split at h
      · exact absurd h (by simp)
      · rename_i hne
        rcases Nat.eq_or_lt_of_le h1 with heq | hlt
        · subst heq
          refine ⟨d, hd, ?_⟩
          simpa using hne
        · exact ih (i + 1) h j hlt (by omega)

theorem tensor_sz_loop_eq (dims : List iodim) :
    ∀ (k i acc r : Nat), tensor_sz_loop dims k i acc = some r → acc < UINT_MOD →
      r = (acc * (((dims.drop i).take k).map iodim.n).prod) % UINT_MOD := by
  intro k
  induction k with
  | zero =>
    intro i acc r h hacc
    simp only [tensor_sz_loop, Option.some.injEq] at h
    subst h
    simp [Nat.mod_eq_of_lt hacc]
  | succ k ih =>
    intro i acc r h hacc
    simp only [tensor_sz_loop] at h
    split at h
    · exact absurd h (by simp)
    · rename_i d hd
      have hlt : i < dims.length := by
        rcases List.getElem?_eq_some_iff.mp hd with ⟨hi, _⟩
        exact hi
      have hget : dims[i] = d := by
        rcases List.getElem?_eq_some_iff.mp hd with ⟨_, he⟩
        exact he
      have hm : umul acc d.n < UINT_MOD := Nat.mod_lt _ (by decide)
      have := ih (i + 1) (umul acc d.n) r h hm
      rw [this, List.drop_eq_getElem_cons hlt, hget]
      simp only [List.take_succ_cons, List.map_cons, List.prod_cons, umul]
      rw [Nat.mod_mul_mod, Nat.mul_assoc]

/-- When `tensor_sz` returns for a tensor of finite rank, its value is the product of
the counts of the `rnk` dimensions, reduced to `uint`. -/
theorem tensor_sz_eq (sz : tensor) (N : Nat) (hf : FINITE_RNK sz.rnk = true)
    (h : tensor_sz sz = some N) :
    N = (((sz.dims.take sz.rnk).map iodim.n).prod) % UINT_MOD := by
  simp only [tensor_sz, hf, Bool.not_true, Bool.false_eq_true, if_false] at h
  have := tensor_sz_loop_eq sz.dims sz.rnk 0 1 N h (by decide)
  simpa using this

theorem iabs_eq_natAbs (a : Int) : iabs a = (a.natAbs : Int) := by
  unfold iabs
  split <;> omega

theorem uint_of_int_iabs (a : Int) : uint_of_int (iabs a) = a.natAbs % UINT_MOD := by
  rw [iabs_eq_natAbs]
  unfold uint_of_int
  rw [← Int.natCast_mod]
  exact Int.toNat_natCast _

theorem uint_of_int_iabs_le (a : Int) : uint_of_int (iabs a) ≤ a.natAbs := by
  rw [uint_of_int_iabs]
  exact Nat.mod_le _ _

theorem uimax_eq_max (a b : Nat) : uimax a b = max a b := by
  unfold uimax
  split <;> omega

/-- What a call with a finite `vdim` that returns 1 has established (any fuel). -/
theorem aux_finite_true (fuel : Nat) (p : problem_rdft2) (vdim : Nat)
    (hv : FINITE_RNK vdim = true)
    (h : rdft2_inplace_strides_aux fuel p vdim = some true) :
    leading_loop p.sz.dims (p.sz.rnk - 1) 0 = some true ∧
    ((FINITE_RNK p.vecsz.rnk = true ∧ p.vecsz.rnk ≠ 0) →
      vdim < p.vecsz.rnk ∧
      ∃ vd, p.vecsz.dims[vdim]? = some vd ∧ vd.is = vd.os ∧
        (p.sz.rnk ≠ 0 →
          ∃ ld N, p.sz.dims[p.sz.rnk - 1]? = some ld ∧ tensor_sz p.sz = some N ∧
            ld.n ≠ 0 ∧ stride_bound p.kind N ld ≤ uint_of_int (iabs vd.os))) := by
  cases fuel with
  | zero => simp [rdft2_inplace_strides_aux] at h
  | succ fuel =>
    simp only [rdft2_inplace_strides_aux] at h
    split at h
    · exact absurd h (by simp)
    · exact absurd h (by simp)
    · rename_i hl
      refine ⟨hl, ?_⟩
      rintro ⟨hfin, hne⟩
      have hc : (!FINITE_RNK p.vecsz.rnk || p.vecsz.rnk == 0) = false := by
        simp [hfin, hne]
      simp only [hc, hv, Bool.not_true, Bool.false_eq_true, if_false] at h
      split at h
      · exact absurd h (by simp)
      · rename_i hlt
        have hlt2 : vdim < p.vecsz.rnk := by simpa using hlt
        refine ⟨hlt2, ?_⟩
        split at h
        · exact absurd h (by simp)
        · rename_i vd hvd
          split at h
          · rename_i hz
            have hz2 : p.sz.rnk = 0 := by simpa using hz
            refine ⟨vd, hvd, ?_, fun hnz => absurd hz2 hnz⟩
            simpa using h
          · split at h
            · rename_i N ld hN hld
              split at h
              · exact absurd h (by simp)
              · rename_i hn
                simp only [Option.some.injEq, Bool.and_eq_true, beq_iff_eq,
                  decide_eq_true_eq] at h
                refine ⟨vd, hvd, h.1, fun _ => ⟨ld, N, hld, hN, ?_, h.2⟩⟩
                simpa using hn
            · exact absurd h (by simp)

theorem aux_true_leading (fuel : Nat) (p : problem_rdft2) (vdim : Nat)
    (h : rdft2_inplace_strides_aux fuel p vdim = some true) :
    leading_loop p.sz.dims (p.sz.rnk - 1) 0 = some true := by
  cases fuel with
  | zero => simp [rdft2_inplace_strides_aux] at h
  | succ fuel =>
    simp only [rdft2_inplace_strides_aux] at h
    split at h
    · exact absurd h (by simp)
    · exact absurd h (by simp)
    · assumption

theorem umul_uint_of_int_iabs (c : Nat) (a : Int) :
    umul (c % UINT_MOD) (uint_of_int (iabs a)) = (c * a.natAbs) % UINT_MOD := by
  rw [uint_of_int_iabs]
  unfold umul
  rw [Nat.mul_mod_mod, Nat.mod_mul_mod]

/-- Without wrap-around the bound of line 67 is the bound over the natural numbers. -/
theorem stride_bound_exact (kind : rdft_kind) (P : Nat) (ld : iodim)
    (hP : P < UINT_MOD)
    (h1 : (P / ld.n) * (ld.n / 2 + 1)
            * (if kind = rdft_kind.R2HC then ld.os else ld.is).natAbs < UINT_MOD)
    (h2 : P * (if kind = rdft_kind.R2HC then ld.is else ld.os).natAbs < UINT_MOD) :
    stride_bound kind P ld
      = max ((P / ld.n) * (ld.n / 2 + 1)
               * (if kind = rdft_kind.R2HC then ld.os else ld.is).natAbs)
            (P * (if kind = rdft_kind.R2HC then ld.is else ld.os).natAbs) := by
  unfold stride_bound
  rw [uimax_eq_max]
  have e1 : umul (P / ld.n) (ld.n / 2 + 1) = ((P / ld.n) * (ld.n / 2 + 1)) % UINT_MOD := rfl
  have e2 : umul P (uint_of_int (iabs (if kind = rdft_kind.R2HC then ld.is else ld.os)))
      = umul (P % UINT_MOD) (uint_of_int (iabs (if kind = rdft_kind.R2HC then ld.is else ld.os))) := by
    rw [Nat.mod_eq_of_lt hP]
  rw [e1, e2, umul_uint_of_int_iabs, umul_uint_of_int_iabs,
    Nat.mod_eq_of_lt h1, Nat.mod_eq_of_lt h2]

/-! ### The predicate returns on well-formed problems -/

theorem leading_loop_isSome (dims : List iodim) :
    ∀ (k i : Nat), i + k ≤ dims.length → (leading_loop dims k i).isSome = true := by
  intro k
  induction k with
  | zero => intro i _; rfl
  | succ k ih =>
    intro i h
    have hi : i < dims.length := by omega
    simp only [leading_loop, List.getElem?_eq_getElem hi]
    split
    · rfl
    · exact ih (i + 1) (by omega)

theorem tensor_sz_loop_isSome (dims : List iodim) :
    ∀ (k i acc : Nat), i + k ≤ dims.length →
      (tensor_sz_loop dims k i acc).isSome = true := by
  intro k
  induction k with
  | zero => intro i acc _; rfl
  | succ k ih =>
    intro i acc h
    have hi : i < dims.length := by omega
    simp only [tensor_sz_loop, List.getElem?_eq_getElem hi]
    exact ih (i + 1) _ (by omega)

theorem vec_loop_isSome (f : Nat → Option Bool) :
    ∀ (k i : Nat), (∀ v, i ≤ v → v < i + k → (f v).isSome = true) →
      (vec_loop f k i).isSome = true := by
  intro k
  induction k with
  | zero => intro i _; rfl
  | succ k ih =>
    intro i h
    have h0 := h i (Nat.le_refl _) (by omega)
    simp only [vec_loop]
    cases hf : f i with
    | none => rw [hf] at h0; exact absurd h0 (by simp)
    | some b =>
      cases b
      · rfl
      · exact ih (i + 1) (fun v hv1 hv2 => h v (by omega) (by omega))

/-- A call with a finite index `vdim` of a vector dimension returns, for a problem whose
tensors hold exactly `rnk` dimensions and whose last transform dimension is not empty. -/
theorem aux_finite_isSome (fuel : Nat) (p : problem_rdft2) (vdim : Nat)
    (hsz : p.sz.dims.length = p.sz.rnk) (hvec : p.vecsz.dims.length = p.vecsz.rnk)
    (hn : ∀ ld, p.sz.dims[p.sz.rnk - 1]? = some ld → ld.n ≠ 0)
    (hfin : FINITE_RNK vdim = true) (hv : vdim < p.vecsz.rnk) :
    (rdft2_inplace_strides_aux (fuel + 1) p vdim).isSome = true := by
  have hl := leading_loop_isSome p.sz.dims (p.sz.rnk - 1) 0 (by omega)
  simp only [rdft2_inplace_strides_aux]
  cases hlead : leading_loop p.sz.dims (p.sz.rnk - 1) 0 with
  | none => rw [hlead] at hl; exact absurd hl (by simp)
  | some b =>
    cases b
    · rfl
    · simp only [hfin, Bool.not_true, Bool.false_eq_true, if_false]
      split
      · rfl
      · have hvi : vdim < p.vecsz.dims.length := by omega
        simp only [hv, not_true_eq_false, if_false, List.getElem?_eq_getElem hvi]
        split
        · rfl
        · rename_i hr
          have hr0 : p.sz.rnk ≠ 0 := by simpa using hr
          have hli : p.sz.rnk - 1 < p.sz.dims.length := by omega
          have hts : (tensor_sz p.sz).isSome = true := by
            unfold tensor_sz
            split
            · rfl
            · exact tensor_sz_loop_isSome p.sz.dims p.sz.rnk 0 1 (by omega)
          cases hN : tensor_sz p.sz with
          | none => rw [hN] at hts; exact absurd hts (by simp)
          | some N =>
            have hne := hn _ (List.getElem?_eq_getElem hli)
            simp only [List.getElem?_eq_getElem hli]
            simp [hne]

/-- For a problem whose tensors hold exactly `rnk` dimensions, whose vector rank is a
`uint` below `RNK_MINFTY` and whose last transform dimension is not empty, a call with
`vdim == RNK_MINFTY` or with an index `vdim` of a vector dimension returns: the two
levels of self-calls of the model are enough. -/
theorem rdft2_inplace_strides_returns (p : problem_rdft2) (vdim : Nat)
    (hsz : p.sz.dims.length = p.sz.rnk) (hvec : p.vecsz.dims.length = p.vecsz.rnk)
    (hvr : p.vecsz.rnk < RNK_MINFTY)
    (hn : ∀ ld, p.sz.dims[p.sz.rnk - 1]? = some ld → ld.n ≠ 0)
    (hv : vdim = RNK_MINFTY ∨ vdim < p.vecsz.rnk) :
    (rdft2_inplace_strides p vdim).isSome = true := by
  have hfinv : ∀ v, v < p.vecsz.rnk → FINITE_RNK v = true := by
    intro v hvlt
    have : v ≠ RNK_MINFTY := by omega
    simpa [FINITE_RNK] using this
  rcases hv with hv | hv
  · subst hv
    have hl := leading_loop_isSome p.sz.dims (p.sz.rnk - 1) 0 (by omega)
    unfold rdft2_inplace_strides
    rw [rdft2_inplace_strides_aux]
    cases hlead : leading_loop p.sz.dims (p.sz.rnk - 1) 0 with
    | none => rw [hlead] at hl; exact absurd hl (by simp)
    | some b =>
      cases b
      · rfl
      · have hm : FINITE_RNK RNK_MINFTY = false := by decide
        simp only [hm, Bool.not_false, if_true]
        split
        · rfl
        · exact vec_loop_isSome _ _ _ (fun v _ hv2 =>
            aux_finite_isSome 0 p v hsz hvec hn (hfinv v (by omega)) (by omega))
  · exact aux_finite_isSome 1 p vdim hsz hvec hn (hfinv vdim hv) hv

/-- C1, amended.  If `rdft2_inplace_strides(p, vdim)` returns 1 then every leading
transform dimension `i` (`i + 1 < sz.rnk`) has `is == os`; and when `sz.rnk >= 1`,
`vecsz` has a finite non-zero rank and `vdim` is a finite index below `vecsz.rnk`, the
selected vector dimension has `is == os` and satisfies the bound as the code evaluates
it, in `uint` arithmetic: `|os| >= uimax(Nc * |os_last|, N * |is_last|)` with `N` the
product of the `sz` counts reduced modulo 2^32, `Nc = (N / n) * (n / 2 + 1)` and both
products reduced modulo 2^32.  Provided that (for `sz` of finite rank) the product `N`
of the `sz` counts, `Nc * |os_last|` and `N * |is_last|` are below 2^32, this is the
bound over the natural numbers, `|os| >= max(Nc * |os_last|, N * |is_last|)`.  Here `n`
is the count of the last `sz` dimension and `(is_last, os_last)` is the last dimension's
`(is, os)` for `R2HC` and `(os, is)` for any other kind. -/
theorem rdft2_inplace_strides_contract (p : problem_rdft2) (vdim : Nat)
    (h : rdft2_inplace_strides p vdim = some true) :
    (∀ i, i + 1 < p.sz.rnk → ∃ d, p.sz.dims[i]? = some d ∧ d.is = d.os) ∧
    (1 ≤ p.sz.rnk → FINITE_RNK p.vecsz.rnk = true → p.vecsz.rnk ≠ 0 →
      FINITE_RNK vdim = true → vdim < p.vecsz.rnk →
      ∃ vd ld N,
        p.vecsz.dims[vdim]? = some vd ∧ p.sz.dims[p.sz.rnk - 1]? = some ld ∧
        tensor_sz p.sz = some N ∧
        (FINITE_RNK p.sz.rnk = true → N = tensor_prod p.sz % UINT_MOD) ∧
        ld.n ≠ 0 ∧
        vd.is = vd.os ∧
        uint_of_int (iabs vd.os)
          ≥ uimax (umul (umul (N / ld.n) (ld.n / 2 + 1))
                     (uint_of_int (iabs (if p.kind = rdft_kind.R2HC then ld.os else ld.is))))
                  (umul N
                     (uint_of_int (iabs (if p.kind = rdft_kind.R2HC then ld.is else ld.os)))) ∧
        (FINITE_RNK p.sz.rnk = true → tensor_prod p.sz < UINT_MOD →
          (tensor_prod p.sz / ld.n) * (ld.n / 2 + 1)
            * (if p.kind = rdft_kind.R2HC then ld.os else ld.is).natAbs < UINT_MOD →
          tensor_prod p.sz
            * (if p.kind = rdft_kind.R2HC then ld.is else ld.os).natAbs < UINT_MOD →
          vd.os.natAbs
            ≥ max ((tensor_prod p.sz / ld.n) * (ld.n / 2 + 1)
                     * (if p.kind = rdft_kind.R2HC then ld.os else ld.is).natAbs)
                  (tensor_prod p.sz
                     * (if p.kind = rdft_kind.R2HC then ld.is else ld.os).natAbs))) := by
  unfold rdft2_inplace_strides at h
  constructor
  · intro i hi
    have hl := aux_true_leading 2 p vdim h
    exact leading_loop_true p.sz.dims (p.sz.rnk - 1) 0 hl i (Nat.zero_le _) (by omega)
  · intro hsz hfin hne hvd hlt
    obtain ⟨_, hrest⟩ := aux_finite_true 2 p vdim hvd h
    obtain ⟨_, vd, hvd1, hvd2, hb⟩ := hrest ⟨hfin, hne⟩
    obtain ⟨ld, N, hld, hN, hn, hbound⟩ := hb (by omega)
    refine ⟨vd, ld, N, hvd1, hld, hN, ?_, hn, hvd2, hbound, ?_⟩
    · intro hf
      exact tensor_sz_eq p.sz N hf hN
    · intro hf hP h1 h2
      have hNP : N = tensor_prod p.sz := by
        rw [tensor_sz_eq p.sz N hf hN]
        exact Nat.mod_eq_of_lt hP
      have := stride_bound_exact p.kind (tensor_prod p.sz) ld hP h1 h2
      rw [hNP] at hbound
      rw [this] at hbound
      exact le_trans hbound (uint_of_int_iabs_le _)


/-! ### The predicate against the reference overlap check -/

theorem mem_index_tuples_single (n : Nat) (v : List Nat) :
    v ∈ index_tuples [n] ↔ ∃ k, k < n ∧ v = [k] := by
  simp [index_tuples, List.mem_flatMap, eq_comm]

theorem shifted_windows_disjoint (s : Int) (M : Nat) (hM : M ≤ s.natAbs)
    (k w : Nat) (hk : k ≠ w) (a b lo : Int)
    (ha : lo ≤ a ∧ a < lo + M) (hb : lo ≤ b ∧ b < lo + M) :
    (k : Int) * s + a ≠ (w : Int) * s + b := by
  intro heq
  have hd : ((k : Int) - w) ≠ 0 := by omega
  have h1 : ((k : Int) - w) * s = b - a := by
    rw [sub_mul]; omega
  have h2 : (((k : Int) - w) * s).natAbs = ((k : Int) - w).natAbs * s.natAbs :=
    Int.natAbs_mul _ _
  have h3 : 1 ≤ ((k : Int) - w).natAbs := Int.natAbs_pos.mpr hd
  have h4 : s.natAbs ≤ ((k : Int) - w).natAbs * s.natAbs := Nat.le_mul_of_pos_left _ h3
  rw [h1] at h2
  omega

/-- What a call with `vdim == RNK_MINFTY` that returns 1 has established for a problem
with a single vector dimension. -/
theorem all_dims_true_single (p : problem_rdft2) (vd : iodim)
    (hvec : p.vecsz = ⟨1, [vd]⟩) (hrnk : 1 ≤ p.sz.rnk)
    (h : rdft2_inplace_strides p RNK_MINFTY = some true) :
    vd.is = vd.os ∧
    ∃ ld N, p.sz.dims[p.sz.rnk - 1]? = some ld ∧ tensor_sz p.sz = some N ∧
      stride_bound p.kind N ld ≤ vd.os.natAbs := by
  unfold rdft2_inplace_strides at h
  have hr : p.vecsz.rnk = 1 := by rw [hvec]
  have hfin : FINITE_RNK p.vecsz.rnk = true := by rw [hr]; decide
  have hne : p.vecsz.rnk ≠ 0 := by rw [hr]; decide
  have h0 : rdft2_inplace_strides_aux 1 p 0 = some true := by
    rw [rdft2_inplace_strides_aux] at h
    split at h
    · exact absurd h (by simp)
    · exact absurd h (by simp)
    · have hc : (!FINITE_RNK p.vecsz.rnk || p.vecsz.rnk == 0) = false := by
        simp [hfin, hne]
      have hm : FINITE_RNK RNK_MINFTY = false := by decide
      simp only [hc, hm, Bool.not_false, if_true, Bool.false_eq_true, if_false] at h
      rw [hr] at h
      simp only [vec_loop] at h
      split at h
      · exact absurd h (by simp)
      · exact absurd h (by simp)
      · assumption
  obtain ⟨_, hrest⟩ := aux_finite_true 1 p 0 (by decide) h0
  obtain ⟨_, vd1, hvd1, hvd2, hb⟩ := hrest ⟨hfin, hne⟩
  have hvd : vd1 = vd := by
    rw [hvec] at hvd1
    simpa using hvd1.symm
  subst hvd
  obtain ⟨ld, N, hld, hN, _, hbound⟩ := hb (by omega)
  exact ⟨hvd2, ld, N, hld, hN, le_trans hbound (uint_of_int_iabs_le _)⟩

/-- C2, amended.  Let the problem have a single vector dimension and a transform of rank
at least 1, and let every offset that one transform reads or writes lie in one window
of width `uimax(Nc * iabs(os), N * iabs(is))`, the bound the predicate compares the
vector stride with (as it does for a packed row-major array with strides of one sign).
If `rdft2_inplace_strides(p, RNK_MINFTY)` returns 1, the brute-force check finds no
read/write hazard between two distinct vector iterations. -/
theorem inplace_strides_no_hazard (p : problem_rdft2) (vd ld : iodim) (N : Nat) (lo : Int)
    (hvec : p.vecsz = ⟨1, [vd]⟩) (hrnk : 1 ≤ p.sz.rnk)
    (hN : tensor_sz p.sz = some N) (hld : p.sz.dims[p.sz.rnk - 1]? = some ld)
    (hwin : ∀ a, a ∈ input_offsets p ∨ a ∈ output_offsets p →
      lo ≤ a ∧ a < lo + (stride_bound p.kind N ld : Int))
    (h : rdft2_inplace_strides p RNK_MINFTY = some true) :
    no_hazard p := by
  obtain ⟨hio, ld1, N1, hld1, hN1, hbound⟩ := all_dims_true_single p vd hvec hrnk h
  have e1 : ld1 = ld := by rw [hld] at hld1; simpa using hld1.symm
  have e2 : N1 = N := by rw [hN] at hN1; simpa using hN1.symm
  subst e1 e2
  have htup : vec_tuples p = index_tuples [vd.n] := by
    simp [vec_tuples, iter_tuples, hvec, FINITE_RNK, RNK_MINFTY]
  have his : (p.vecsz.dims.take p.vecsz.rnk).map iodim.is = [vd.os] := by
    simp [hvec, hio]
  have hos : (p.vecsz.dims.take p.vecsz.rnk).map iodim.os = [vd.os] := by
    simp [hvec]
  intro v hv w hw hne a ha
  rw [htup, mem_index_tuples_single] at hv hw
  obtain ⟨k, _, rfl⟩ := hv
  obtain ⟨j, _, rfl⟩ := hw
  have hkj : k ≠ j := by
    intro e; exact hne (by rw [e])
  simp only [output_addrs, hos, List.mem_map, offset_of] at ha
  obtain ⟨oa, hoa, rfl⟩ := ha
  have wa := hwin oa (Or.inr hoa)
  constructor
  · intro hin
    simp only [input_addrs, his, List.mem_map, offset_of] at hin
    obtain ⟨ob, hob, heq⟩ := hin
    have wb := hwin ob (Or.inl hob)
    have := shifted_windows_disjoint vd.os _ hbound k j hkj oa ob lo wa wb
    omega
  · intro hout
    simp only [output_addrs, hos, List.mem_map, offset_of] at hout
    obtain ⟨ob, hob, heq⟩ := hout
    have wb := hwin ob (Or.inr hob)
    have := shifted_windows_disjoint vd.os _ hbound k j hkj oa ob lo wa wb
    omega

/-- C2 fails as stated: for a size-4 `R2HC` transform with input stride -1 and output
stride 1, repeated at vector stride 4, the predicate returns 1 although the second
iteration reads addresses 1 and 2, which the first iteration writes. -/
theorem inplace_strides_hazard_example :
    rdft2_inplace_strides reversed_input_problem RNK_MINFTY = some true ∧
    ¬ no_hazard reversed_input_problem := by
  decide

/-- The predicate also returns 1 in the presence of a hazard when all strides are
positive: with rows 11 apart and vector stride 8, the first iteration writes address 11,
which the second iteration reads. -/
theorem inplace_strides_hazard_wide_rows :
    rdft2_inplace_strides wide_rows_problem RNK_MINFTY = some true ∧
    ¬ no_hazard wide_rows_problem := by
  decide

/-- The predicate checks every vector dimension on its own: two vector dimensions with
the same stride pass, although the iterations (0, 1) and (1, 0) write the same
addresses. -/
theorem inplace_strides_hazard_twin_vector :
    rdft2_inplace_strides twin_vector_problem RNK_MINFTY = some true ∧
    ¬ no_hazard twin_vector_problem := by
  decide

/-- The amended statement applies to the padded 3 x 4 layout: all offsets lie in the
window `[0, 18)`. -/
theorem inplace_strides_no_hazard_witness :
    rdft2_inplace_strides padded_problem RNK_MINFTY = some true ∧
    no_hazard padded_problem :=
  ⟨by decide,
   inplace_strides_no_hazard padded_problem ⟨5, 18, 18⟩ ⟨4, 1, 2⟩ 12 0 rfl (by decide)
     (by decide) (by decide)
     (fun a ha =>
       (by decide : ∀ b ∈ input_offsets padded_problem ++ output_offsets padded_problem,
          (0 : Int) ≤ b ∧ b < 0 + (stride_bound padded_problem.kind 12 ⟨4, 1, 2⟩ : Int))
         a (List.mem_append.mpr ha))
     (by decide)⟩

/-- C1 fails as stated, the bound being evaluated in `uint` arithmetic, and each of the
three side conditions of the amended statement is needed.  (1) For a 65536 x 65536
transform the product of the counts is 2^32 and wraps to `N = 0`, so `Nc = 0` and the
call returns 1 for the vector stride 1, which is below `max(Nc * 1, N * 1)` taken over
the natural numbers.  (2) For size 4 and output stride 1431655766, `Nc * |os_last|` is
2^32 + 2 and wraps to 2: the call returns 1 for the vector stride 4.  (3) For size 4
and input stride 2^30, `N * |is_last|` is 2^32 and wraps to 0: the call returns 1 for
the vector stride 3. -/
theorem rdft2_inplace_strides_wrap_example :
    (rdft2_inplace_strides wrapping_size_problem 0 = some true ∧
      tensor_prod wrapping_size_problem.sz = 4294967296 ∧
      ∃ vd ld : iodim, wrapping_size_problem.vecsz.dims[0]? = some vd ∧
        wrapping_size_problem.sz.dims[wrapping_size_problem.sz.rnk - 1]? = some ld ∧
        ¬ (vd.os.natAbs
            ≥ max ((tensor_prod wrapping_size_problem.sz / ld.n) * (ld.n / 2 + 1)
                     * ld.os.natAbs)
                  (tensor_prod wrapping_size_problem.sz * ld.is.natAbs))) ∧
    (rdft2_inplace_strides wrapping_output_problem 0 = some true ∧
      ∃ vd ld : iodim, wrapping_output_problem.vecsz.dims[0]? = some vd ∧
        wrapping_output_problem.sz.dims[wrapping_output_problem.sz.rnk - 1]? = some ld ∧
        ¬ (vd.os.natAbs
            ≥ max ((tensor_prod wrapping_output_problem.sz / ld.n) * (ld.n / 2 + 1)
                     * ld.os.natAbs)
                  (tensor_prod wrapping_output_problem.sz * ld.is.natAbs))) ∧
    (rdft2_inplace_strides wrapping_input_problem 0 = some true ∧
      ∃ vd ld : iodim, wrapping_input_problem.vecsz.dims[0]? = some vd ∧
        wrapping_input_problem.sz.dims[wrapping_input_problem.sz.rnk - 1]? = some ld ∧
        ¬ (vd.os.natAbs
            ≥ max ((tensor_prod wrapping_input_problem.sz / ld.n) * (ld.n / 2 + 1)
                     * ld.os.natAbs)
                  (tensor_prod wrapping_input_problem.sz * ld.is.natAbs))) :=
  ⟨⟨by decide, by decide, ⟨2, 1, 1⟩, ⟨65536, 1, 1⟩, by decide, by decide, by decide⟩,
   ⟨by decide, ⟨2, 4, 4⟩, ⟨4, 1, 1431655766⟩, by decide, by decide, by decide⟩,
   ⟨by decide, ⟨2, 3, 3⟩, ⟨4, 1073741824, 1⟩, by decide, by decide, by decide⟩⟩

/-- The amended contract of C1 at the padded 3 x 4 layout: the call for vector dimension 0
returns 1, the leading dimension has equal strides, and the vector stride 18 is at least
`max(Nc * 2, N * 1)` with `N = 12` and `Nc = 9`. -/
theorem rdft2_inplace_strides_contract_witness :
    rdft2_inplace_strides padded_problem 0 = some true ∧
    (∀ i, i + 1 < padded_problem.sz.rnk →
      ∃ d, padded_problem.sz.dims[i]? = some d ∧ d.is = d.os) ∧
    (∃ vd ld : iodim, padded_problem.vecsz.dims[0]? = some vd ∧
      padded_problem.sz.dims[1]? = some ld ∧ vd.is = vd.os ∧
      vd.os.natAbs ≥ max ((12 / ld.n) * (ld.n / 2 + 1) * ld.os.natAbs) (12 * ld.is.natAbs)) :=
  ⟨by decide,
   (rdft2_inplace_strides_contract padded_problem 0 (by decide)).1,
   match (rdft2_inplace_strides_contract padded_problem 0 (by decide)).2
       (by decide) (by decide) (by decide) (by decide) (by decide) with
   | ⟨vd, ld, _, h1, h2, _, _, _, h6, _, h8⟩ =>
     ⟨vd, ld, h1, h2, h6,
      h8 (by decide) (by decide)
        (by
          have e : ld = ⟨4, 1, 2⟩ := by
            have h2b : padded_problem.sz.dims[1]? = some ld := h2
            simpa [padded_problem] using h2b.symm
          subst e
          decide)
        (by
          have e : ld = ⟨4, 1, 2⟩ := by
            have h2b : padded_problem.sz.dims[1]? = some ld := h2
            simpa [padded_problem] using h2b.symm
          subst e
          decide)⟩⟩

/-! ### The block-size tables of `mkplan` -/

theorem fill_foldl (p : problem_mpi_transpose) (b bt : Int) (l : List Nat) :
    ∀ t : block_tables,
      (l.foldl (fill_step p b bt) t).sbs
        = t.sbs ++ l.map (fun (pe : Nat) => cast_int (b * XM_block p.ny p.tblock pe * p.vn)) ∧
      (l.foldl (fill_step p b bt) t).sbo
        = t.sbo ++ l.map (fun (pe : Nat) => cast_int ((pe : Int) * (b * p.tblock) * p.vn)) ∧
      (l.foldl (fill_step p b bt) t).rbs
        = t.rbs ++ l.map (fun (pe : Nat) => cast_int (XM_block p.nx p.block pe * bt * p.vn)) ∧
      (l.foldl (fill_step p b bt) t).rbo
        = t.rbo ++ l.map (fun (pe : Nat) => cast_int ((pe : Int) * (p.block * bt) * p.vn)) ∧
      ((l.foldl (fill_step p b bt) t).equal_blocks = true ↔
        t.equal_blocks = true ∧
        ∀ pe ∈ l, cast_int (b * XM_block p.ny p.tblock pe * p.vn) = (b * p.tblock) * p.vn ∧
                  cast_int (XM_block p.nx p.block pe * bt * p.vn) = (p.block * bt) * p.vn) := by
  induction l with
  | nil => intro t; simp
  | cons pe l ih =>
    intro t
    obtain ⟨h1, h2, h3, h4, h5⟩ := ih (fill_step p b bt t pe)
    simp only [List.foldl_cons, List.map_cons, List.mem_cons, forall_eq_or_imp]
    refine ⟨?_, ?_, ?_, ?_, ?_⟩
    · rw [h1]; simp [fill_step]
    · rw [h2]; simp [fill_step]
    · rw [h3]; simp [fill_step]
    · rw [h4]; simp [fill_step]
    · rw [h5]
      simp only [fill_step]
      constructor
      · rintro ⟨hq, hrest⟩
        split at hq
        · exact absurd hq (by simp)
        · rename_i hc
          simp only [Bool.or_eq_true, bne_iff_ne, ne_eq, not_or, not_not] at hc
          exact ⟨hq, hc, hrest⟩
      · rintro ⟨hq, hc, hrest⟩
        refine ⟨?_, hrest⟩
        rw [if_neg]
        · exact hq
        · simp [hc.1, hc.2]

theorem fill_tables_spec (p : problem_mpi_transpose) (my_pe n_pes : Nat) :
    (fill_tables p my_pe n_pes).sbs
      = (List.range n_pes).map (fun (pe : Nat) =>
          cast_int (XM_block p.nx p.block my_pe * XM_block p.ny p.tblock pe * p.vn)) ∧
    (fill_tables p my_pe n_pes).rbs
      = (List.range n_pes).map (fun (pe : Nat) =>
          cast_int (XM_block p.nx p.block pe * XM_block p.ny p.tblock my_pe * p.vn)) ∧
    ((fill_tables p my_pe n_pes).equal_blocks = true ↔
      ∀ pe, pe < n_pes →
        cast_int (XM_block p.nx p.block my_pe * XM_block p.ny p.tblock pe * p.vn)
          = (XM_block p.nx p.block my_pe * p.tblock) * p.vn ∧
        cast_int (XM_block p.nx p.block pe * XM_block p.ny p.tblock my_pe * p.vn)
          = (p.block * XM_block p.ny p.tblock my_pe) * p.vn) := by
  obtain ⟨h1, _, h3, _, h5⟩ :=
    fill_foldl p (XM_block p.nx p.block my_pe) (XM_block p.ny p.tblock my_pe)
      (List.range n_pes) ⟨[], [], [], [], true⟩
  refine ⟨?_, ?_, ?_⟩
  · simpa [fill_tables] using h1
  · simpa [fill_tables] using h3
  · unfold fill_tables
    rw [h5]
    simp [List.mem_range]

theorem nada_fst (tr : List event) (c1 c2 c3 : Option Nat) : (nada tr c1 c2 c3).1 = none := rfl

theorem mkplan_finish_tables (env : mkplan_env) (p : problem_mpi_transpose)
    (tr : List event) (c1 c2 c3 : Option Nat) (ioff ooff : Int) (pln : P)
    (h : (mkplan_finish env p tr c1 c2 c3 ioff ooff).1 = some pln) :
    plan_has_tables env p pln := by
  simp only [mkplan_finish, Option.some.injEq] at h
  subst h
  simp [plan_has_tables]

theorem mkplan_post_tables (hdr : mpi_header) (env : mkplan_env)
    (p : problem_mpi_transpose) (tr : List event) (cld1 : Option Nat) (I : Int) (pln : P)
    (h : (mkplan_post hdr env p tr cld1 I).1 = some pln) :
    plan_has_tables env p pln := by
  unfold mkplan_post at h
  dsimp only at h
  split_ifs at h <;> first
    | exact mkplan_finish_tables _ _ _ _ _ _ _ _ _ h
    | simp [nada_fst] at h

/-- A plan returned by `mkplan` carries the tables and the flag of `fill_tables`, and
the duplicated communicator. -/
theorem mkplan_plan_tables (hdr : mpi_header) (env : mkplan_env) (ego : S)
    (p : problem_mpi_transpose) (plnr : planner) (pln : P)
    (h : (mkplan hdr env ego p plnr).1 = some pln) :
    plan_has_tables env p pln := by
  unfold mkplan at h
  dsimp only at h
  split_ifs at h <;> first
    | exact mkplan_post_tables _ _ _ _ _ _ _ h
    | simp [nada_fst] at h

/-! ### `applicable` and `apply` -/

/-- C3.  `applicable(ego, p, plnr)` returns true only if (1) `p->I != p->O`, (2) the
policy permits destroying the input (`NO_DESTROY_INPUT` not set) or the problem has
`TRANSPOSED_IN` and the solver is the variant without the extra copy, and (3) the flags
of the problem are not scrambled; and `mkplan` returns no plan (and calls nothing)
whenever `applicable` is false. -/
theorem applicable_contract (hdr : mpi_header) (env : mkplan_env) (ego : S)
    (p : problem_mpi_transpose) (plnr : planner) :
    (applicable hdr ego p plnr = true →
      p.I ≠ p.O ∧
      (hdr.NO_DESTROY_INPUTP plnr = false ∨
        ((p.flags &&& hdr.TRANSPOSED_IN) ≠ 0 ∧ ego.copy_transposed_in = 0)) ∧
      hdr.SCRAMBLEDP p.flags = false) ∧
    (applicable hdr ego p plnr = false →
      (mkplan hdr env ego p plnr).1 = none ∧ (mkplan hdr env ego p plnr).2 = []) := by
  constructor
  · intro h
    simp only [applicable, Bool.and_eq_true, Bool.or_eq_true, bne_iff_ne, ne_eq,
      Bool.not_eq_true', beq_iff_eq] at h
    obtain ⟨⟨⟨h1, h2⟩, _⟩, h4⟩ := h
    exact ⟨h1, h2, h4⟩
  · intro h
    simp [mkplan, h]

/-- C3 at sample inputs: an applicable problem, and one with `I == O` for which
`mkplan` returns no plan. -/
theorem applicable_contract_witness :
    applicable example_header ⟨0⟩ (example_problem 10 6 4 2) ⟨0, 0⟩ = true ∧
    (example_problem 10 6 4 2).I ≠ (example_problem 10 6 4 2).O ∧
    applicable example_header ⟨0⟩ { example_problem 10 6 4 2 with O := 0 } ⟨0, 0⟩ = false ∧
    (mkplan example_header (example_env 0 3) ⟨0⟩
        { example_problem 10 6 4 2 with O := 0 } ⟨0, 0⟩).1 = none :=
  ⟨by decide,
   ((applicable_contract example_header (example_env 0 3) ⟨0⟩ (example_problem 10 6 4 2)
      ⟨0, 0⟩).1 (by decide)).1,
   by decide,
   ((applicable_contract example_header (example_env 0 3) ⟨0⟩
      { example_problem 10 6 4 2 with O := 0 } ⟨0, 0⟩).2 (by decide)).1⟩

theorem isSome_of_any_true (env : mkplan_env) (c : child) (o : Option Nat)
    (hat : ∀ c, env.any_true c true = true) (h : ¬ env.any_true c o.isNone = true) :
    o.isSome = true := by
  cases o with
  | none => exact absurd (hat c) h
  | some _ => rfl

theorem mkplan_post_children (hdr : mpi_header) (env : mkplan_env)
    (p : problem_mpi_transpose) (tr : List event) (cld1 : Option Nat) (I : Int) (pln : P)
    (hat : ∀ c, env.any_true c true = true)
    (h : (mkplan_post hdr env p tr cld1 I).1 = some pln) :
    pln.cld1 = cld1 ∧ pln.cld2.isSome = true := by
  unfold mkplan_post at h
  dsimp only at h
  split_ifs at h with h1 h2 h3 h4 h5 h6 h7 <;> first
    | (simp only [mkplan_finish, Option.some.injEq] at h
       subst h
       exact ⟨rfl, isSome_of_any_true env child.cld2 _ hat (by assumption)⟩)
    | simp [nada_fst] at h

/-- In a group whose failure query reports at least the local failures, a plan built by
`mkplan` always has the sub-plan `cld2`, and lacks `cld1` only for a pre-transposed
input that is not copied. -/
theorem mkplan_children (hdr : mpi_header) (env : mkplan_env) (ego : S)
    (p : problem_mpi_transpose) (plnr : planner) (pln : P)
    (hat : ∀ c, env.any_true c true = true)
    (h : (mkplan hdr env ego p plnr).1 = some pln) :
    pln.cld2.isSome = true ∧
    (pln.cld1 = none →
      (p.flags &&& hdr.TRANSPOSED_IN) ≠ 0 ∧ ego.copy_transposed_in = 0) := by
  unfold mkplan at h
  dsimp only at h
  split_ifs at h with h1 h2 h3 h4 h5
  · simp [nada_fst] at h
  · obtain ⟨k1, k2⟩ := mkplan_post_children hdr env p _ _ _ pln hat h
    refine ⟨k2, fun hn => ?_⟩
    have := isSome_of_any_true env child.cld1 _ hat h4
    rw [← k1, hn] at this
    exact absurd this (by simp)
  · obtain ⟨_, k2⟩ := mkplan_post_children hdr env p _ _ _ pln hat h
    exact ⟨k2, fun _ => ⟨by simpa using h2, by simpa using h3⟩⟩
  · simp [nada_fst] at h
  · obtain ⟨k1, k2⟩ := mkplan_post_children hdr env p _ _ _ pln hat h
    refine ⟨k2, fun hn => ?_⟩
    have := isSome_of_any_true env child.cld1 _ hat h5
    rw [← k1, hn] at this
    exact absurd this (by simp)

/-- The calls of `apply` are the claimed steps, when the first table entries exist for a
plan with `equal_blocks` set. -/
theorem apply_eq_claimed (ego : P) (I O sc rc : Int)
    (h : ego.equal_blocks = true →
      ego.send_block_sizes[0]? = some sc ∧ ego.recv_block_sizes[0]? = some rc) :
    apply ego I O = some (claimed_steps ego I O sc rc) := by
  rcases ego with ⟨c1, c2, c3, comm, sbs, sbo, rbs, rbo, ioff, ooff, eq⟩
  cases eq
  · cases c1 <;> cases c2 <;> cases c3 <;>
      simp [apply, exchange, apply_post, claimed_steps]
  · obtain ⟨hs, hr⟩ := h rfl
    simp only at hs hr
    cases c1 <;> cases c2 <;> cases c3 <;>
      simp [apply, exchange, apply_post, claimed_steps, hs, hr]

/-- For a plan built by `mkplan` in a group of at least one process, `apply` is defined
and makes the claimed steps: both size tables have a first entry. -/
theorem mkplan_apply_defined (hdr : mpi_header) (env : mkplan_env) (ego : S)
    (p : problem_mpi_transpose) (plnr : planner) (pln : P) (I O : Int)
    (hn : 1 ≤ env.n_pes)
    (h : (mkplan hdr env ego p plnr).1 = some pln) :
    ∃ sc rc, pln.send_block_sizes[0]? = some sc ∧ pln.recv_block_sizes[0]? = some rc ∧
      apply pln I O = some (claimed_steps pln I O sc rc) := by
  obtain ⟨hs, _, hr, _, _, _⟩ := mkplan_plan_tables hdr env ego p plnr pln h
  obtain ⟨fs, fr, _⟩ := fill_tables_spec p env.my_pe env.n_pes
  have h0 : 0 < env.n_pes := by omega
  have e1 : pln.send_block_sizes[0]? = some (cast_int
      (XM_block p.nx p.block env.my_pe * XM_block p.ny p.tblock ((0 : Nat) : Int) * p.vn)) := by
    rw [hs, fs]
    simp only [List.getElem?_map, List.getElem?_range h0, Option.map_some']
  have e2 : pln.recv_block_sizes[0]? = some (cast_int
      (XM_block p.nx p.block ((0 : Nat) : Int) * XM_block p.ny p.tblock env.my_pe * p.vn)) := by
    rw [hr, fr]
    simp only [List.getElem?_map, List.getElem?_range h0, Option.map_some']
  exact ⟨_, _, e1, e2, apply_eq_claimed pln I O _ _ (fun _ => ⟨e1, e2⟩)⟩

/-- C5.  For every plan and buffers `I`, `O` (the first entries `sc`, `rc` of the size
tables existing when `equal_blocks` is set), `apply` makes exactly the claimed calls in
the claimed order: `cld1` from `I` into `O`, one exchange from `O` into `I`, then `cld2`
from `I` into `O`; or, without `cld1`, one exchange from `I` into `O`, then `cld2` in
place on `O`; `cld2rest` after `cld2` on the same buffers displaced by `rest_Ioff` and
`rest_Ooff`.  Exactly one call is a collective exchange, and it is `MPI_Alltoall` if and
only if `equal_blocks` is set. -/
theorem apply_steps (ego : P) (I O sc rc : Int)
    (h : ego.equal_blocks = true →
      ego.send_block_sizes[0]? = some sc ∧ ego.recv_block_sizes[0]? = some rc) :
    apply ego I O = some (claimed_steps ego I O sc rc) ∧
    ((claimed_steps ego I O sc rc).filter is_exchange).length = 1 ∧
    ((∃ s c r d m, event.MPI_Alltoall s c r d m ∈ claimed_steps ego I O sc rc) ↔
      ego.equal_blocks = true) := by
  refine ⟨apply_eq_claimed ego I O sc rc h, ?_, ?_⟩
  · rcases ego with ⟨c1, c2, c3, comm, sbs, sbo, rbs, rbo, ioff, ooff, eq⟩
    cases eq <;> cases c1 <;> cases c2 <;> cases c3 <;> simp [claimed_steps, is_exchange]
  · rcases ego with ⟨c1, c2, c3, comm, sbs, sbo, rbs, rbo, ioff, ooff, eq⟩
    cases eq <;> cases c1 <;> cases c2 <;> cases c3 <;> simp [claimed_steps]

/-- C5 at a sample plan with all three sub-plans. -/
theorem apply_steps_witness :
    apply example_plan 0 1000
      = some [event.child_apply 1 0 1000,
              event.MPI_Alltoallv 1000 [6, 3] [0, 6] 0 [6, 6] [0, 6] 7,
              event.child_apply 2 0 1000,
              event.child_apply 3 8 1004] :=
  (apply_steps example_plan 0 1000 6 6 (by decide)).1

/-! ### The block-size tables and `equal_blocks` -/

theorem cast_int_of_range (x : Int) (h1 : -2147483648 ≤ x) (h2 : x < 2147483648) :
    cast_int x = x := by
  unfold cast_int
  omega

theorem cast_int_double (x : Int) (h : cast_int (2 * x) = 4 * x) : x = 0 := by
  unfold cast_int at h
  omega

/-- C9.  For two ranks `i`, `j` of a group of `n` processes planning the same problem,
the send size that the table of rank `i` holds for peer `j` equals the receive size that
the table of rank `j` holds for peer `i`: both are
`(int) (block(nx, block, i) * block(ny, tblock, j) * vn)`, which is the product itself
whenever the product fits an `int`. -/
theorem send_recv_symmetric (hdr : mpi_header) (env_i env_j : mkplan_env) (ego_i ego_j : S)
    (p : problem_mpi_transpose) (plnr_i plnr_j : planner) (pln_i pln_j : P) (n : Nat)
    (hn_i : env_i.n_pes = n) (hn_j : env_j.n_pes = n)
    (hi : env_i.my_pe < n) (hj : env_j.my_pe < n)
    (hp_i : (mkplan hdr env_i ego_i p plnr_i).1 = some pln_i)
    (hp_j : (mkplan hdr env_j ego_j p plnr_j).1 = some pln_j) :
    pln_i.send_block_sizes[env_j.my_pe]?
      = some (cast_int (XM_block p.nx p.block env_i.my_pe
                        * XM_block p.ny p.tblock env_j.my_pe * p.vn)) ∧
    pln_j.recv_block_sizes[env_i.my_pe]?
      = some (cast_int (XM_block p.nx p.block env_i.my_pe
                        * XM_block p.ny p.tblock env_j.my_pe * p.vn)) ∧
    (-2147483648 ≤ XM_block p.nx p.block env_i.my_pe
                     * XM_block p.ny p.tblock env_j.my_pe * p.vn →
      XM_block p.nx p.block env_i.my_pe
        * XM_block p.ny p.tblock env_j.my_pe * p.vn < 2147483648 →
      pln_i.send_block_sizes[env_j.my_pe]?
        = some (XM_block p.nx p.block env_i.my_pe
                * XM_block p.ny p.tblock env_j.my_pe * p.vn) ∧
      pln_j.recv_block_sizes[env_i.my_pe]?
        = some (XM_block p.nx p.block env_i.my_pe
                * XM_block p.ny p.tblock env_j.my_pe * p.vn)) := by
  obtain ⟨hs, _, _, _, _, _⟩ := mkplan_plan_tables hdr env_i ego_i p plnr_i pln_i hp_i
  obtain ⟨_, _, hr, _, _, _⟩ := mkplan_plan_tables hdr env_j ego_j p plnr_j pln_j hp_j
  have e1 : pln_i.send_block_sizes[env_j.my_pe]?
      = some (cast_int (XM_block p.nx p.block env_i.my_pe
                        * XM_block p.ny p.tblock env_j.my_pe * p.vn)) := by
    rw [hs, (fill_tables_spec p env_i.my_pe env_i.n_pes).1, hn_i]
    simp only [List.getElem?_map, List.getElem?_range hj, Option.map_some']
  have e2 : pln_j.recv_block_sizes[env_i.my_pe]?
      = some (cast_int (XM_block p.nx p.block env_i.my_pe
                        * XM_block p.ny p.tblock env_j.my_pe * p.vn)) := by
    rw [hr, (fill_tables_spec p env_j.my_pe env_j.n_pes).2.1, hn_j]
    simp only [List.getElem?_map, List.getElem?_range hi, Option.map_some']
  refine ⟨e1, e2, fun h1 h2 => ?_⟩
  rw [e1, e2, cast_int_of_range _ h1 h2]
  exact ⟨rfl, rfl⟩

/-- C9 at ranks 0 and 2 of three processes, for a 10 x 6 array in blocks of 4 and 2
rows: rank 0 sends 4 * 2 values to rank 2, and rank 2 receives 4 * 2 values from rank 0. -/
theorem send_recv_symmetric_witness :
    ∃ pln_0 pln_2,
      (mkplan example_header (example_env 0 3) ⟨0⟩ (example_problem 10 6 4 2) ⟨0, 0⟩).1
        = some pln_0 ∧
      (mkplan example_header (example_env 2 3) ⟨0⟩ (example_problem 10 6 4 2) ⟨0, 0⟩).1
        = some pln_2 ∧
      pln_0.send_block_sizes[2]? = some 8 ∧ pln_2.recv_block_sizes[0]? = some 8 :=
  ⟨_, _, rfl, rfl,
   (send_recv_symmetric example_header (example_env 0 3) (example_env 2 3) ⟨0⟩ ⟨0⟩
      (example_problem 10 6 4 2) ⟨0, 0⟩ ⟨0, 0⟩ _ _ 3 rfl rfl (by decide) (by decide)
      rfl rfl).1,
   (send_recv_symmetric example_header (example_env 0 3) (example_env 2 3) ⟨0⟩ ⟨0⟩
      (example_problem 10 6 4 2) ⟨0, 0⟩ ⟨0, 0⟩ _ _ 3 rfl rfl (by decide) (by decide)
      rfl rfl).2.1⟩

/-- Which collective `apply` calls: `MPI_Alltoall` if `equal_blocks` is set, and
otherwise `MPI_Alltoallv` with the tables of the plan. -/
theorem apply_exchange_kind (ego : P) (I O : Int) (tr : List event)
    (h : apply ego I O = some tr) :
    (ego.equal_blocks = true →
      (∃ s c r d, event.MPI_Alltoall s c r d ego.comm ∈ tr) ∧
      ∀ s cs ds r cr dr m, event.MPI_Alltoallv s cs ds r cr dr m ∉ tr) ∧
    (ego.equal_blocks = false →
      (∃ s r, event.MPI_Alltoallv s ego.send_block_sizes ego.send_block_offsets
                r ego.recv_block_sizes ego.recv_block_offsets ego.comm ∈ tr) ∧
      ∀ s c r d m, event.MPI_Alltoall s c r d m ∉ tr) := by
  rcases ego with ⟨c1, c2, c3, comm, sbs, sbo, rbs, rbo, ioff, ooff, eq⟩
  cases eq
  · cases c1 <;> cases c2 <;> cases c3 <;>
      simp only [apply, exchange, apply_post, Bool.false_eq_true, if_false,
        Option.some.injEq] at h <;> subst h <;> simp
  · cases hs : sbs[0]? <;> cases hr : rbs[0]? <;>
      cases c1 <;> cases c2 <;> cases c3 <;>
      simp only [apply, exchange, apply_post, if_true, hs, hr, Option.some.injEq,
        reduceCtorEq] at h <;> subst h <;> simp

theorem XM_block_10_4 (pe : Nat) (h : pe < 3) :
    XM_block 10 4 pe = 4 ∨ XM_block 10 4 pe = 2 := by
  unfold XM_block
  omega

/-- The test of lines 270-272 on the plan built by `mkplan`: `equal_blocks` is set
exactly when every table entry passes the comparison with `(b * tblock) * vn`, resp.
`(block * bt) * vn`; then the entries of each table are equal to one another.  Also the
collective that `apply` calls, and the value of the flag for 10 rows in blocks of 4 on 3
processes. -/
theorem equal_blocks_test (hdr : mpi_header) (env : mkplan_env) (ego : S)
    (p : problem_mpi_transpose) (plnr : planner) (pln : P)
    (h : (mkplan hdr env ego p plnr).1 = some pln) :
    (pln.equal_blocks = true ↔
      ∀ pe, pe < env.n_pes →
        pln.send_block_sizes[pe]?
          = some ((XM_block p.nx p.block env.my_pe * p.tblock) * p.vn) ∧
        pln.recv_block_sizes[pe]?
          = some ((p.block * XM_block p.ny p.tblock env.my_pe) * p.vn)) ∧
    (pln.equal_blocks = true →
      (∀ x ∈ pln.send_block_sizes, ∀ y ∈ pln.send_block_sizes, x = y) ∧
      (∀ x ∈ pln.recv_block_sizes, ∀ y ∈ pln.recv_block_sizes, x = y)) ∧
    (∀ I O tr, apply pln I O = some tr →
      (pln.equal_blocks = true →
        (∃ s c r d, event.MPI_Alltoall s c r d pln.comm ∈ tr) ∧
        ∀ s cs ds r cr dr m, event.MPI_Alltoallv s cs ds r cr dr m ∉ tr) ∧
      (pln.equal_blocks = false →
        (∃ s r, event.MPI_Alltoallv s pln.send_block_sizes pln.send_block_offsets
                  r pln.recv_block_sizes pln.recv_block_offsets pln.comm ∈ tr) ∧
        ∀ s c r d m, event.MPI_Alltoall s c r d m ∉ tr)) ∧
    (p.nx = 10 → p.block = 4 → env.n_pes = 3 → env.my_pe < 3 → p.vn ≠ 0 → p.tblock ≠ 0 →
      pln.equal_blocks = false) := by
  obtain ⟨hs, _, hr, _, he, _⟩ := mkplan_plan_tables hdr env ego p plnr pln h
  obtain ⟨fs, fr, fe⟩ := fill_tables_spec p env.my_pe env.n_pes
  have hget : ∀ pe, pe < env.n_pes →
      pln.send_block_sizes[pe]?
        = some (cast_int (XM_block p.nx p.block env.my_pe * XM_block p.ny p.tblock pe * p.vn)) ∧
      pln.recv_block_sizes[pe]?
        = some (cast_int (XM_block p.nx p.block pe * XM_block p.ny p.tblock env.my_pe * p.vn)) := by
    intro pe hpe
    rw [hs, hr, fs, fr]
    simp only [List.getElem?_map, List.getElem?_range hpe, Option.map_some', and_self]
  have hiff : pln.equal_blocks = true ↔
      ∀ pe, pe < env.n_pes →
        pln.send_block_sizes[pe]?
          = some ((XM_block p.nx p.block env.my_pe * p.tblock) * p.vn) ∧
        pln.recv_block_sizes[pe]?
          = some ((p.block * XM_block p.ny p.tblock env.my_pe) * p.vn) := by
    rw [he, fe]
    constructor
    · intro hall pe hpe
      obtain ⟨g1, g2⟩ := hget pe hpe
      obtain ⟨a1, a2⟩ := hall pe hpe
      rw [g1, g2, a1, a2]
      exact ⟨rfl, rfl⟩
    · intro hall pe hpe
      obtain ⟨g1, g2⟩ := hget pe hpe
      obtain ⟨a1, a2⟩ := hall pe hpe
      rw [g1] at a1
      rw [g2] at a2
      exact ⟨Option.some.inj a1, Option.some.inj a2⟩
  refine ⟨hiff, ?_, ?_, ?_⟩
  · intro heq
    have hall := (he ▸ fe).mp heq
    constructor
    · intro x hx y hy
      rw [hs, fs] at hx hy
      simp only [List.mem_map, List.mem_range] at hx hy
      obtain ⟨i, hi, rfl⟩ := hx
      obtain ⟨j, hj, rfl⟩ := hy
      rw [(hall i hi).1, (hall j hj).1]
    · intro x hx y hy
      rw [hr, fr] at hx hy
      simp only [List.mem_map, List.mem_range] at hx hy
      obtain ⟨i, hi, rfl⟩ := hx
      obtain ⟨j, hj, rfl⟩ := hy
      rw [(hall i hi).2, (hall j hj).2]
  · intro I O tr htr
    exact apply_exchange_kind pln I O tr htr
  · intro hnx hb hn hme hvn htb
    by_contra hne
    have heq : pln.equal_blocks = true := by
      cases hq : pln.equal_blocks
      · exact absurd hq hne
      · rfl
    have hall := (he ▸ fe).mp heq
    rw [hnx, hb, hn] at hall
    obtain ⟨a1, _⟩ := hall env.my_pe hme
    obtain ⟨_, a2⟩ := hall 2 (by decide)
    have h2 : XM_block 10 4 ((2 : Nat) : Int) = 2 := by decide
    rw [h2] at a2
    have e1 : (2 : Int) * XM_block p.ny p.tblock env.my_pe * p.vn
        = 2 * (XM_block p.ny p.tblock env.my_pe * p.vn) := by ring
    have e2 : (4 : Int) * XM_block p.ny p.tblock env.my_pe * p.vn
        = 4 * (XM_block p.ny p.tblock env.my_pe * p.vn) := by ring
    rw [e1, e2] at a2
    have hz := cast_int_double _ a2
    have hbt : XM_block p.ny p.tblock env.my_pe = 0 := by
      rcases mul_eq_zero.mp hz with h0 | h0
      · exact h0
      · exact absurd h0 hvn
    rw [hbt] at a1
    simp only [mul_zero, zero_mul] at a1
    have hc0 : cast_int 0 = 0 := by decide
    rw [hc0] at a1
    have hprod : XM_block 10 4 env.my_pe * p.tblock * p.vn ≠ 0 := by
      apply mul_ne_zero _ hvn
      apply mul_ne_zero _ htb
      rcases XM_block_10_4 env.my_pe hme with h4 | h4 <;> rw [h4] <;> decide
    exact hprod a1.symm

theorem XM_block_zero (n block : Int) (h : block ≤ n) :
    XM_block n block ((0 : Nat) : Int) = block := by
  unfold XM_block
  simp only [Nat.cast_zero, zero_mul, sub_zero]
  omega

/-- C4, amended.  For the plan built by `mkplan`, when the block sizes do not exceed the
extents (`block <= nx`, `tblock <= ny`) and the full-block sizes `(b * tblock) * vn` and
`(block * bt) * vn` fit an `int`: `equal_blocks` is set (so `apply` uses the fixed-size
`MPI_Alltoall`) if and only if all `n_pes` per-peer send block sizes are equal to one
another and all `n_pes` per-peer receive block sizes are equal to one another; without
these side conditions the "only if" direction still holds.  Otherwise `equal_blocks` is
0 and `apply` uses the variable-size `MPI_Alltoallv` with the per-peer size and offset
tables.  For `nx = 10`, `block = 4` and 3 processes (block sizes 4, 4, 2), with `vn` and
`tblock` non-zero, `equal_blocks` is 0. -/
theorem equal_blocks_iff_all_equal (hdr : mpi_header) (env : mkplan_env) (ego : S)
    (p : problem_mpi_transpose) (plnr : planner) (pln : P)
    (h : (mkplan hdr env ego p plnr).1 = some pln) :
    (p.block ≤ p.nx → p.tblock ≤ p.ny →
      -2147483648 ≤ (XM_block p.nx p.block env.my_pe * p.tblock) * p.vn →
      (XM_block p.nx p.block env.my_pe * p.tblock) * p.vn < 2147483648 →
      -2147483648 ≤ (p.block * XM_block p.ny p.tblock env.my_pe) * p.vn →
      (p.block * XM_block p.ny p.tblock env.my_pe) * p.vn < 2147483648 →
      (pln.equal_blocks = true ↔
        (∀ x ∈ pln.send_block_sizes, ∀ y ∈ pln.send_block_sizes, x = y) ∧
        (∀ x ∈ pln.recv_block_sizes, ∀ y ∈ pln.recv_block_sizes, x = y))) ∧
    (pln.equal_blocks = true →
      (∀ x ∈ pln.send_block_sizes, ∀ y ∈ pln.send_block_sizes, x = y) ∧
      (∀ x ∈ pln.recv_block_sizes, ∀ y ∈ pln.recv_block_sizes, x = y)) ∧
    (∀ I O tr, apply pln I O = some tr →
      (pln.equal_blocks = true →
        (∃ s c r d, event.MPI_Alltoall s c r d pln.comm ∈ tr) ∧
        ∀ s cs ds r cr dr m, event.MPI_Alltoallv s cs ds r cr dr m ∉ tr) ∧
      (pln.equal_blocks = false →
        (∃ s r, event.MPI_Alltoallv s pln.send_block_sizes pln.send_block_offsets
                  r pln.recv_block_sizes pln.recv_block_offsets pln.comm ∈ tr) ∧
        ∀ s c r d m, event.MPI_Alltoall s c r d m ∉ tr)) ∧
    (p.nx = 10 → p.block = 4 → env.n_pes = 3 → env.my_pe < 3 → p.vn ≠ 0 → p.tblock ≠ 0 →
      pln.equal_blocks = false) := by
  obtain ⟨_, t2, t3, t4⟩ := equal_blocks_test hdr env ego p plnr pln h
  refine ⟨?_, t2, t3, t4⟩
  intro hbx hty hs1 hs2 hr1 hr2
  refine ⟨t2, ?_⟩
  rintro ⟨hsAll, hrAll⟩
  obtain ⟨hs, _, hr, _, he, _⟩ := mkplan_plan_tables hdr env ego p plnr pln h
  obtain ⟨fs, fr, fe⟩ := fill_tables_spec p env.my_pe env.n_pes
  rw [he, fe]
  intro pe hpe
  have h0 : 0 < env.n_pes := by omega
  constructor
  · have m1 : cast_int (XM_block p.nx p.block env.my_pe * XM_block p.ny p.tblock pe * p.vn)
        ∈ pln.send_block_sizes := by
      rw [hs, fs]
      exact List.mem_map.mpr ⟨pe, List.mem_range.mpr hpe, rfl⟩
    have m0 : cast_int (XM_block p.nx p.block env.my_pe
          * XM_block p.ny p.tblock ((0 : Nat) : Int) * p.vn) ∈ pln.send_block_sizes := by
      rw [hs, fs]
      exact List.mem_map.mpr ⟨0, List.mem_range.mpr h0, rfl⟩
    rw [hsAll _ m1 _ m0, XM_block_zero p.ny p.tblock hty]
    exact cast_int_of_range _ hs1 hs2
  · have m1 : cast_int (XM_block p.nx p.block pe * XM_block p.ny p.tblock env.my_pe * p.vn)
        ∈ pln.recv_block_sizes := by
      rw [hr, fr]
      exact List.mem_map.mpr ⟨pe, List.mem_range.mpr hpe, rfl⟩
    have m0 : cast_int (XM_block p.nx p.block ((0 : Nat) : Int)
          * XM_block p.ny p.tblock env.my_pe * p.vn) ∈ pln.recv_block_sizes := by
      rw [hr, fr]
      exact List.mem_map.mpr ⟨0, List.mem_range.mpr h0, rfl⟩
    rw [hrAll _ m1 _ m0, XM_block_zero p.nx p.block hbx]
    exact cast_int_of_range _ hr1 hr2

/-- C4 (amended) at the scenario of the specification: 10 rows in blocks of 4 on 3
processes (block sizes 4, 4, 2); the plan of rank 2 has `equal_blocks` 0, and its
receive sizes are not all equal. -/
theorem equal_blocks_iff_all_equal_witness :
    ∃ pln,
      (mkplan example_header (example_env 2 3) ⟨0⟩ (example_problem 10 6 4 2) ⟨0, 0⟩).1
        = some pln ∧
      pln.equal_blocks = false ∧
      ¬ ((∀ x ∈ pln.send_block_sizes, ∀ y ∈ pln.send_block_sizes, x = y) ∧
         (∀ x ∈ pln.recv_block_sizes, ∀ y ∈ pln.recv_block_sizes, x = y)) :=
  ⟨_, rfl,
   (equal_blocks_iff_all_equal example_header (example_env 2 3) ⟨0⟩
      (example_problem 10 6 4 2) ⟨0, 0⟩ _ rfl).2.2.2 rfl rfl rfl (by decide) (by decide)
      (by decide),
   fun hall =>
     absurd
       (((equal_blocks_iff_all_equal example_header (example_env 2 3) ⟨0⟩
            (example_problem 10 6 4 2) ⟨0, 0⟩ _ rfl).1 (by decide) (by decide) (by decide)
            (by decide) (by decide) (by decide)).mpr hall)
       (by decide)⟩

/-- C4 fails as stated, and each side condition of the amended statement is needed.
(1) On a single process with a 3 x 3 array and block sizes 4, the one send size and the
one receive size (both 9) are trivially equal to one another, yet `equal_blocks` is 0,
because 9 differs from the full-block size 12.  (2) The same with only `block`, and
(3) only `tblock`, exceeding the extent.  (4) On a single process with a 65536 x 65536
array in one block, the full-block size 2^32 does not fit an `int`: the table entries
are 0, `equal_blocks` is 0.  (5) For 10 rows in blocks of 4 on 3 processes,
`equal_blocks` is 1 when `vn` is 0, and (6) when `tblock` is 0. -/
theorem equal_blocks_counterexample :
    (∃ pln,
      (mkplan example_header (example_env 0 1) ⟨0⟩ (example_problem 3 3 4 4) ⟨0, 0⟩).1
        = some pln ∧
      pln.send_block_sizes = [9] ∧ pln.recv_block_sizes = [9] ∧
      (∀ x ∈ pln.send_block_sizes, ∀ y ∈ pln.send_block_sizes, x = y) ∧
      (∀ x ∈ pln.recv_block_sizes, ∀ y ∈ pln.recv_block_sizes, x = y) ∧
      pln.equal_blocks = false) ∧
    (∃ pln,
      (mkplan example_header (example_env 0 1) ⟨0⟩ (example_problem 3 3 4 3) ⟨0, 0⟩).1
        = some pln ∧
      pln.send_block_sizes = [9] ∧ pln.recv_block_sizes = [9] ∧
      pln.equal_blocks = false) ∧
    (∃ pln,
      (mkplan example_header (example_env 0 1) ⟨0⟩ (example_problem 3 3 3 4) ⟨0, 0⟩).1
        = some pln ∧
      pln.send_block_sizes = [9] ∧ pln.recv_block_sizes = [9] ∧
      pln.equal_blocks = false) ∧
    (∃ pln,
      (mkplan example_header (example_env 0 1) ⟨0⟩
         (example_problem 65536 65536 65536 65536) ⟨0, 0⟩).1 = some pln ∧
      pln.send_block_sizes = [0] ∧ pln.recv_block_sizes = [0] ∧
      pln.equal_blocks = false) ∧
    (∃ pln,
      (mkplan example_header (example_env 2 3) ⟨0⟩
         { example_problem 10 6 4 2 with vn := 0 } ⟨0, 0⟩).1 = some pln ∧
      pln.equal_blocks = true) ∧
    (∃ pln,
      (mkplan example_header (example_env 2 3) ⟨0⟩ (example_problem 10 6 4 0) ⟨0, 0⟩).1
        = some pln ∧
      pln.equal_blocks = true) :=
  ⟨⟨_, rfl, by decide, by decide, by decide, by decide, by decide⟩,
   ⟨_, rfl, by decide, by decide, by decide⟩,
   ⟨_, rfl, by decide, by decide, by decide⟩,
   ⟨_, rfl, by decide, by decide, by decide⟩,
   ⟨_, rfl, by decide⟩,
   ⟨_, rfl, by decide⟩⟩

/-- On a rank whose own blocks are not empty (and for sizes that the cast to `int` does
not change), `equal_blocks` is set if and only if every process of the group holds full
blocks in both dimensions, a condition that does not depend on the rank. -/
theorem equal_blocks_of_nonempty_rank (hdr : mpi_header) (env : mkplan_env) (ego : S)
    (p : problem_mpi_transpose) (plnr : planner) (pln : P)
    (h : (mkplan hdr env ego p plnr).1 = some pln)
    (hb : XM_block p.nx p.block env.my_pe ≠ 0) (hbt : XM_block p.ny p.tblock env.my_pe ≠ 0)
    (hvn : p.vn ≠ 0)
    (hr : ∀ pe : Nat, pe < env.n_pes →
      cast_int (XM_block p.nx p.block env.my_pe * XM_block p.ny p.tblock pe * p.vn)
        = XM_block p.nx p.block env.my_pe * XM_block p.ny p.tblock pe * p.vn ∧
      cast_int (XM_block p.nx p.block pe * XM_block p.ny p.tblock env.my_pe * p.vn)
        = XM_block p.nx p.block pe * XM_block p.ny p.tblock env.my_pe * p.vn) :
    pln.equal_blocks = true ↔
      ∀ pe : Nat, pe < env.n_pes →
        XM_block p.ny p.tblock pe = p.tblock ∧ XM_block p.nx p.block pe = p.block := by
  obtain ⟨_, _, _, _, he, _⟩ := mkplan_plan_tables hdr env ego p plnr pln h
  obtain ⟨_, _, fe⟩ := fill_tables_spec p env.my_pe env.n_pes
  rw [he, fe]
  constructor
  · intro hall pe hpe
    obtain ⟨a1, a2⟩ := hall pe hpe
    obtain ⟨r1, r2⟩ := hr pe hpe
    rw [r1] at a1
    rw [r2] at a2
    constructor
    · exact mul_left_cancel₀ hb (mul_right_cancel₀ hvn a1)
    · have a3 : XM_block p.nx p.block pe * XM_block p.ny p.tblock env.my_pe
          = p.block * XM_block p.ny p.tblock env.my_pe := mul_right_cancel₀ hvn a2
      exact mul_right_cancel₀ hbt a3
  · intro hall pe hpe
    obtain ⟨a1, a2⟩ := hall pe hpe
    obtain ⟨r1, r2⟩ := hr pe hpe
    rw [r1, r2, a1, a2]
    exact ⟨rfl, rfl⟩

/-- C10 fails on the code: for a 3 x 3 array in blocks of 1 row on 4 processes (block
sizes 1, 1, 1, 0), rank 0 computes `equal_blocks = 0` and rank 3, whose own blocks are
empty, computes `equal_blocks = 1`; at apply time rank 0 calls `MPI_Alltoallv` and rank 3
calls `MPI_Alltoall`. -/
theorem equal_blocks_rank_dependent :
    ∃ pln_0 pln_3,
      (mkplan example_header (example_env 0 4) ⟨0⟩ (example_problem 3 3 1 1) ⟨0, 0⟩).1
        = some pln_0 ∧
      (mkplan example_header (example_env 3 4) ⟨0⟩ (example_problem 3 3 1 1) ⟨0, 0⟩).1
        = some pln_3 ∧
      pln_0.equal_blocks = false ∧ pln_3.equal_blocks = true ∧
      apply pln_0 0 1000
        = some [event.child_apply 1 0 1000,
                event.MPI_Alltoallv 1000 [1, 1, 1, 0] [0, 1, 2, 3] 0 [1, 1, 1, 0] [0, 1, 2, 3] 7,
                event.child_apply 2 0 1000] ∧
      apply pln_3 0 1000
        = some [event.child_apply 1 0 1000,
                event.MPI_Alltoall 1000 0 0 0 7,
                event.child_apply 2 0 1000] :=
  ⟨_, _, rfl, rfl, by decide, by decide, by decide, by decide⟩

/-! ### Failure handling in `mkplan` -/

theorem mkplan_nxb_eq (p : problem_mpi_transpose) (hnx : 0 ≤ p.nx) (hb : 1 ≤ p.block) :
    mkplan_nxb p = p.nx / p.block := by
  have hb0 : p.block ≠ 0 := by omega
  have hm0 : 0 ≤ p.nx % p.block := Int.emod_nonneg _ hb0
  have hm1 : p.nx % p.block < p.block := Int.emod_lt_of_pos _ (by omega)
  have hdm : p.block * (p.nx / p.block) + p.nx % p.block = p.nx := Int.ediv_add_emod _ _
  have ht : Int.tdiv (p.nx + p.block - 1) p.block = (p.nx + p.block - 1) / p.block :=
    Int.tdiv_eq_ediv (by omega) (by omega)
  unfold mkplan_nxb
  simp only [ht]
  by_cases hz : p.nx % p.block = 0
  · have e : p.nx + p.block - 1 = (p.block - 1) + p.block * (p.nx / p.block) := by omega
    have q : (p.nx + p.block - 1) / p.block = p.nx / p.block := by
      rw [e, Int.add_mul_ediv_left _ _ hb0, Int.ediv_eq_zero_of_lt (by omega) (by omega)]
      omega
    rw [q]
    have : p.nx = p.nx / p.block * p.block := by rw [Int.mul_comm]; omega
    simp [← this]
  · have e : p.nx + p.block - 1
        = (p.nx % p.block - 1) + p.block * (p.nx / p.block + 1) := by
      rw [Int.mul_add]; omega
    have q : (p.nx + p.block - 1) / p.block = p.nx / p.block + 1 := by
      rw [e, Int.add_mul_ediv_left _ _ hb0, Int.ediv_eq_zero_of_lt (by omega) (by omega)]
      omega
    rw [q]
    have hne : p.nx ≠ (p.nx / p.block + 1) * p.block := by
      rw [Int.add_mul, Int.mul_comm]; omega
    simp [hne]

theorem leftover_iff_not_dvd (p : problem_mpi_transpose) (hnx : 0 ≤ p.nx)
    (hb : 1 ≤ p.block) :
    p.nx ≠ mkplan_nxb p * p.block ↔ ¬ p.block ∣ p.nx := by
  rw [mkplan_nxb_eq p hnx hb]
  have hdm : p.block * (p.nx / p.block) + p.nx % p.block = p.nx := Int.ediv_add_emod _ _
  rw [Int.dvd_iff_emod_eq_zero, Int.mul_comm]
  constructor
  · intro h hz; apply h; omega
  · intro h he; apply h; omega

theorem mkplan_post_rest (hdr : mpi_header) (env : mkplan_env) (p : problem_mpi_transpose)
    (tr : List event) (cld1 : Option Nat) (I : Int) (h0 : rest_requests tr = []) :
    (∀ prb ∈ rest_requests (mkplan_post hdr env p tr cld1 I).2,
      p.nx ≠ mkplan_nxb p * p.block ∧ prb = rest_problem hdr env p I) ∧
    ((∀ flag, event.any_true child.cld2 flag true ∉ (mkplan_post hdr env p tr cld1 I).2) →
      p.nx ≠ mkplan_nxb p * p.block →
      rest_requests (mkplan_post hdr env p tr cld1 I).2 = [rest_problem hdr env p I]) ∧
    (∀ pln, (mkplan_post hdr env p tr cld1 I).1 = some pln →
      p.nx ≠ mkplan_nxb p * p.block →
      (pln.rest_Ioff, pln.rest_Ooff) = rest_offsets hdr env p) := by
  unfold rest_requests at h0
  unfold mkplan_post
  dsimp only
  split_ifs <;>
    (simp only [nada, mkplan_finish, rest_requests, List.filterMap_append, h0,
       List.nil_append]
     clear h0
     simp_all [rest_problem, rest_offsets, rest_request_of])

theorem mkplan_rest (hdr : mpi_header) (env : mkplan_env) (ego : S)
    (p : problem_mpi_transpose) (plnr : planner) :
    (∀ prb ∈ rest_requests (mkplan hdr env ego p plnr).2,
      p.nx ≠ mkplan_nxb p * p.block ∧ prb = rest_problem hdr env p (mkplan_I hdr ego p)) ∧
    (applicable hdr ego p plnr = true →
      (∀ flag, event.any_true child.cld1 flag true ∉ (mkplan hdr env ego p plnr).2) →
      (∀ flag, event.any_true child.cld2 flag true ∉ (mkplan hdr env ego p plnr).2) →
      p.nx ≠ mkplan_nxb p * p.block →
      rest_requests (mkplan hdr env ego p plnr).2
        = [rest_problem hdr env p (mkplan_I hdr ego p)]) ∧
    (∀ pln, (mkplan hdr env ego p plnr).1 = some pln →
      p.nx ≠ mkplan_nxb p * p.block →
      (pln.rest_Ioff, pln.rest_Ooff) = rest_offsets hdr env p) := by
  unfold mkplan
  dsimp only
  split_ifs with ha hti hc hf hf
  · simp_all [rest_requests]
  · refine ⟨?_, ?_, ?_⟩
    · simp [nada, rest_requests, rest_request_of]
    · intro _ h1 _ _
      exfalso
      simp [nada, hf] at h1
    · simp [nada]
  · have hI : mkplan_I hdr ego p = p.I := by simp_all [mkplan_I]
    rw [hI]
    obtain ⟨k1, k2, k3⟩ := mkplan_post_rest hdr env p _ _ p.I
      (by simp [rest_requests, rest_request_of] :
        rest_requests
          [event.mkplan_d child.cld1
             ⟨mktensor_1d (XM_block p.nx p.block env.my_pe * p.ny * p.vn) 1 1, p.I, p.O⟩
             (env.mkplan_d child.cld1
               ⟨mktensor_1d (XM_block p.nx p.block env.my_pe * p.ny * p.vn) 1 1, p.I, p.O⟩),
           event.any_true child.cld1
             (env.mkplan_d child.cld1
               ⟨mktensor_1d (XM_block p.nx p.block env.my_pe * p.ny * p.vn) 1 1, p.I,
                 p.O⟩).isNone
             (env.any_true child.cld1
               (env.mkplan_d child.cld1
                 ⟨mktensor_1d (XM_block p.nx p.block env.my_pe * p.ny * p.vn) 1 1, p.I,
                   p.O⟩).isNone)] = [])
    exact ⟨k1, fun _ _ h2 h3 => k2 h2 h3, k3⟩
  · have hI : mkplan_I hdr ego p = p.O := by simp_all [mkplan_I]
    rw [hI]
    obtain ⟨k1, k2, k3⟩ := mkplan_post_rest hdr env p [] none p.O (by simp [rest_requests])
    exact ⟨k1, fun _ _ h2 h3 => k2 h2 h3, k3⟩
  · refine ⟨?_, ?_, ?_⟩
    · simp [nada, rest_requests, rest_request_of]
    · intro _ h1 _ _
      exfalso
      simp [nada, hf] at h1
    · simp [nada]
  · have hI : mkplan_I hdr ego p = p.I := by simp_all [mkplan_I]
    rw [hI]
    obtain ⟨k1, k2, k3⟩ := mkplan_post_rest hdr env p _ _ p.I
      (by simp [rest_requests, rest_request_of] :
        rest_requests
          [event.mkplan_d child.cld1
             ⟨mktensor_3d (XM_block p.nx p.block env.my_pe) (p.ny * p.vn) p.vn
                p.ny p.vn (XM_block p.nx p.block env.my_pe * p.vn)  p.vn 1 1, p.I, p.O⟩
             (env.mkplan_d child.cld1
               ⟨mktensor_3d (XM_block p.nx p.block env.my_pe) (p.ny * p.vn) p.vn
                  p.ny p.vn (XM_block p.nx p.block env.my_pe * p.vn)  p.vn 1 1, p.I, p.O⟩),
           event.any_true child.cld1
             (env.mkplan_d child.cld1
               ⟨mktensor_3d (XM_block p.nx p.block env.my_pe) (p.ny * p.vn) p.vn
                  p.ny p.vn (XM_block p.nx p.block env.my_pe * p.vn)  p.vn 1 1, p.I,
                 p.O⟩).isNone
             (env.any_true child.cld1
               (env.mkplan_d child.cld1
                 ⟨mktensor_3d (XM_block p.nx p.block env.my_pe) (p.ny * p.vn) p.vn
                    p.ny p.vn (XM_block p.nx p.block env.my_pe * p.vn)  p.vn 1 1, p.I,
                   p.O⟩).isNone)] = [])
    exact ⟨k1, fun _ _ h2 h3 => k2 h2 h3, k3⟩

theorem rest_problem_eq_claimed (hdr : mpi_header) (env : mkplan_env)
    (p : problem_mpi_transpose) (I : Int) (hnx : 0 ≤ p.nx) (hb : 1 ≤ p.block) :
    rest_problem hdr env p I = claimed_rest_problem hdr env p I := by
  have e1 : p.nx % p.block = p.nx - p.block * (p.nx / p.block) := Int.emod_def _ _
  have e2 : p.nx * p.vn - p.nx / p.block * (p.block * p.vn) = p.nx % p.block * p.vn := by
    rw [e1]; ring
  have e3 : p.nx - p.nx / p.block * p.block = p.nx % p.block := by
    rw [e1]; ring
  unfold rest_problem claimed_rest_problem rest_offsets
  rw [mkplan_nxb_eq p hnx hb]
  dsimp only
  by_cases hf : (p.flags &&& hdr.TRANSPOSED_OUT) = 0
  · simp only [hf, beq_self_eq_true, if_true, e2]
    congr 2
    ring
  · have hf2 : ((p.flags &&& hdr.TRANSPOSED_OUT) == 0) = false := by simpa using hf
    simp only [hf, hf2, Bool.false_eq_true, if_false, e3]

/-- C7.  For `nx >= 0` and `block >= 1`: the count `nxb` of equal-sized blocks that
`mkplan` computes is `floor(nx / block)`; in a call that is applicable and in which no
failure is reported for `cld1` and `cld2`, the leftover sub-plan `cld2rest` is requested
if and only if `block` does not divide `nx`; whenever it is requested, `nx mod block`
lies strictly between 0 and `block` and the sub-problem is the claimed one (extent
`nx mod block` rows, times `vn` without `TRANSPOSED_OUT`, at the claimed tail offsets);
and a plan built when `block` does not divide `nx` stores the tail offsets
`Ioff = bt * block * vn * nxb`, `Ooff = block * vn * nxb` without `TRANSPOSED_OUT` and
`Ioff = Ooff = bt * block * nxb * vn` with it. -/
theorem leftover_subplan (hdr : mpi_header) (env : mkplan_env) (ego : S)
    (p : problem_mpi_transpose) (plnr : planner) (hnx : 0 ≤ p.nx) (hb : 1 ≤ p.block) :
    mkplan_nxb p = p.nx / p.block ∧
    (applicable hdr ego p plnr = true →
      (∀ flag, event.any_true child.cld1 flag true ∉ (mkplan hdr env ego p plnr).2) →
      (∀ flag, event.any_true child.cld2 flag true ∉ (mkplan hdr env ego p plnr).2) →
      (rest_requests (mkplan hdr env ego p plnr).2 ≠ [] ↔ ¬ p.block ∣ p.nx)) ∧
    (∀ prb ∈ rest_requests (mkplan hdr env ego p plnr).2,
      0 < p.nx % p.block ∧ p.nx % p.block < p.block ∧
      prb = claimed_rest_problem hdr env p (mkplan_I hdr ego p)) ∧
    (∀ pln, (mkplan hdr env ego p plnr).1 = some pln → ¬ p.block ∣ p.nx →
      ((p.flags &&& hdr.TRANSPOSED_OUT) = 0 →
        pln.rest_Ioff
          = XM_block p.ny p.tblock env.my_pe * p.block * p.vn * (p.nx / p.block) ∧
        pln.rest_Ooff = p.block * p.vn * (p.nx / p.block)) ∧
      ((p.flags &&& hdr.TRANSPOSED_OUT) ≠ 0 →
        pln.rest_Ioff
          = XM_block p.ny p.tblock env.my_pe * p.block * (p.nx / p.block) * p.vn ∧
        pln.rest_Ooff
          = XM_block p.ny p.tblock env.my_pe * p.block * (p.nx / p.block) * p.vn)) := by
  obtain ⟨k1, k2, k3⟩ := mkplan_rest hdr env ego p plnr
  have hdvd := leftover_iff_not_dvd p hnx hb
  have hm0 : 0 ≤ p.nx % p.block := Int.emod_nonneg _ (by omega)
  have hm1 : p.nx % p.block < p.block := Int.emod_lt_of_pos _ (by omega)
  refine ⟨mkplan_nxb_eq p hnx hb, ?_, ?_, ?_⟩
  · intro ha h1 h2
    constructor
    · intro hne
      cases hr : rest_requests (mkplan hdr env ego p plnr).2 with
      | nil => exact absurd hr hne
      | cons prb rest =>
        have hmem : prb ∈ rest_requests (mkplan hdr env ego p plnr).2 := by
          rw [hr]; exact List.mem_cons_self _ _
        exact hdvd.mp (k1 prb hmem).1
    · intro hnd
      rw [k2 ha h1 h2 (hdvd.mpr hnd)]
      simp
  · intro prb hprb
    obtain ⟨g1, g2⟩ := k1 prb hprb
    have hnd := hdvd.mp g1
    have hmz : p.nx % p.block ≠ 0 := fun hz => hnd (Int.dvd_of_emod_eq_zero hz)
    refine ⟨by omega, hm1, ?_⟩
    rw [g2, rest_problem_eq_claimed hdr env p _ hnx hb]
  · intro pln hpln hnd
    have ho := k3 pln hpln (hdvd.mpr hnd)
    unfold rest_offsets at ho
    rw [mkplan_nxb_eq p hnx hb] at ho
    dsimp only at ho
    constructor
    · intro hf
      simp only [hf, beq_self_eq_true, if_true, Prod.mk.injEq] at ho
      rw [ho.1, ho.2]
      exact ⟨by ring, rfl⟩
    · intro hf
      have hf2 : ((p.flags &&& hdr.TRANSPOSED_OUT) == 0) = false := by simpa using hf
      simp only [hf2, Bool.false_eq_true, if_false, Prod.mk.injEq] at ho
      exact ho

/-- C7 at a sample problem: 10 rows in blocks of 4 leave `nxb = 2` full blocks and a
leftover of 2 rows, planned at the tail offsets (for rank 0 of 3, `bt = 2`):
`Ioff = 2 * 4 * 1 * 2` and `Ooff = 4 * 1 * 2`. -/
theorem leftover_subplan_witness :
    mkplan_nxb (example_problem 10 6 4 2) = 2 ∧
    rest_requests
      (mkplan example_header (example_env 0 3) ⟨0⟩ (example_problem 10 6 4 2) ⟨0, 0⟩).2
      ≠ [] ∧
    rest_requests
      (mkplan example_header (example_env 0 3) ⟨0⟩ (example_problem 10 6 4 2) ⟨0, 0⟩).2
      = [⟨mktensor_2d 2 2 10  2 1 1, 16, 1008⟩] :=
  ⟨(leftover_subplan example_header (example_env 0 3) ⟨0⟩ (example_problem 10 6 4 2) ⟨0, 0⟩
      (by decide) (by decide)).1,
   ((leftover_subplan example_header (example_env 0 3) ⟨0⟩ (example_problem 10 6 4 2) ⟨0, 0⟩
      (by decide) (by decide)).2.1 (by decide) (by decide) (by decide)).mpr (by decide),
   by decide⟩

/-! ### The policy flags across `mkapiplan` -/

theorem ldiff_lor_self (x b : Nat) : Nat.ldiff x b ||| b = x ||| b := by
  apply Nat.eq_of_testBit_eq
  intro i
  rw [Nat.testBit_lor, Nat.testBit_lor, Nat.testBit_ldiff]
  cases x.testBit i <;> cases b.testBit i <;> rfl

theorem lor_land_self (x b : Nat) : (x ||| b) &&& b = b := by
  apply Nat.eq_of_testBit_eq
  intro i
  rw [Nat.testBit_land, Nat.testBit_lor]
  cases x.testBit i <;> cases b.testBit i <;> rfl

/-- The flags with which `mkapiplan` returns, when the planner operations leave them
unchanged. -/
theorem mkapiplan_flags_eq (hdr : api_header) (plnr : planner) (flags prb : Nat)
    (r : mkapiplan_result) (hk : planner_keeps_flags hdr)
    (h : mkapiplan hdr plnr flags prb = some r) :
    r.plnr.planner_flags = (hdr.mapflags plnr flags).planner_flags ||| hdr.BLESSING := by
  obtain ⟨hm, hf⟩ := hk
  unfold mkapiplan at h
  dsimp only at h
  split at h
  · exact absurd h (by simp)
  · simp only [Option.some.injEq] at h
    subst h
    dsimp only
    rw [hf, hm, hm]
    exact ldiff_lor_self _ _

/-- Whatever the header constants and `mapflags` are: if the planner did not have all
bits of `BLESSING` set before the call, its flags differ after the call. -/
theorem mkapiplan_flags_not_restored (hdr : api_header) (plnr : planner) (flags prb : Nat)
    (r : mkapiplan_result) (hk : planner_keeps_flags hdr)
    (h : mkapiplan hdr plnr flags prb = some r)
    (hb : plnr.planner_flags &&& hdr.BLESSING ≠ hdr.BLESSING) :
    r.plnr.planner_flags ≠ plnr.planner_flags := by
  intro heq
  apply hb
  rw [← heq, mkapiplan_flags_eq hdr plnr flags prb r hk h]
  exact lor_land_self _ _

/-- C8, amended.  Assuming the planner operations `mkplan` and `forget` leave the flags
unchanged, when `mkapiplan` returns the policy flags of the planner are the flags that
`mapflags` installed with the `BLESSING` bit set; in particular the `BLESSING` bit is
set whatever the flags were before the call, and nothing is restored. -/
theorem mkapiplan_flags (hdr : api_header) (plnr : planner) (flags prb : Nat)
    (r : mkapiplan_result) (hk : planner_keeps_flags hdr)
    (h : mkapiplan hdr plnr flags prb = some r) :
    r.plnr.planner_flags = (hdr.mapflags plnr flags).planner_flags ||| hdr.BLESSING ∧
    r.plnr.planner_flags &&& hdr.BLESSING = hdr.BLESSING := by
  have key := mkapiplan_flags_eq hdr plnr flags prb r hk h
  exact ⟨key, by rw [key]; exact lor_land_self _ _⟩

/-- C8 fails as stated: with planner operations that leave the flags unchanged (and even
a `mapflags` that changes nothing), a call with all flags clear returns with the
`BLESSING` bit set. -/
theorem mkapiplan_flags_counterexample :
    planner_keeps_flags inert_api ∧
    ∃ r, mkapiplan inert_api ⟨0, 0⟩ 0 0 = some r ∧
      r.plnr.planner_flags = 1 ∧ r.plnr.planner_flags ≠ (⟨0, 0⟩ : planner).planner_flags := by
  have e : Nat.ldiff 0 1 ||| 1 = 1 := by rw [ldiff_lor_self]; decide
  refine ⟨⟨fun _ _ => rfl, fun _ _ => rfl⟩, _, rfl, e, ?_⟩
  show Nat.ldiff 0 1 ||| 1 ≠ 0
  rw [e]
  decide

/-- C8 (amended) at a sample call: API flags 3 are mapped to planner flags 6, and the
call returns with flags 7 where they were 0 before. -/
theorem mkapiplan_flags_witness :
    ∃ r, mkapiplan example_api ⟨0, 0⟩ 3 0 = some r ∧ r.plnr.planner_flags = 7 :=
  ⟨_, rfl,
   (mkapiplan_flags example_api ⟨0, 0⟩ 3 0 _ ⟨fun _ _ => rfl, fun _ _ => rfl⟩ rfl).1⟩

end FFTW
